import Mathlib

/-!
Verification of the NodeModal path-addressed read/patch engine
(src/src/features/modals/NodeModal/index.tsx).

The engine reads the authoritative JSON document text, resolves a structural
path to a node, applies form edits, and re-serializes the document with
JSON.stringify(parsed, null, 2).  We embed the JSON value space, the exact
serializer (2-space pretty printing), a faithful model of JSON.parse, and the
functions normalizeNodeData, jsonPathToString, parseValue and applyEdits.

Modelling conventions:
- JavaScript objects are insertion-ordered string-keyed maps; we model them as
  association lists.  JSON.parse collapses duplicate keys (last value wins,
  first position kept), so parsed documents never hold duplicate keys; the
  predicate wfV captures that invariant.
- JavaScript numbers are modelled exactly as decimals, mantissa times
  10^(-scale), rather than as IEEE doubles: every numeric literal in scope
  round-trips through this representation the way short decimals round-trip
  through doubles.
- Array assignment with a canonical numeric-string key writes the element
  (extending with nulls past the end, as serialization renders holes);
  assignment with any other string key creates a non-index property that
  JSON.stringify drops, so at the serialization level the array is unchanged.
  Prototype exotica (proto and length magic properties) are outside the model.
- In strict mode (the file is an ES module) assigning a property on null or a
  primitive throws a TypeError, which the catch block turns into an alert.
-/

namespace NodeModal

/-- A JSON value: null, boolean, exact decimal number (mantissa m over 10^e),
string, array, or insertion-ordered object. -/
inductive JValue where
  | null
  | bool (b : Bool)
  | num (m : Int) (e : Nat)
  | str (s : String)
  | arr (elems : List JValue)
  | obj (fields : List (String × JValue))

mutual
/-- Structural equality test on JSON values. -/
def beqV : JValue → JValue → Bool
  | .null, .null => true
  | .bool a, .bool b => a == b
  | .num m1 e1, .num m2 e2 => m1 == m2 && e1 == e2
  | .str a, .str b => a == b
  | .arr l1, .arr l2 => beqArr l1 l2
  | .obj f1, .obj f2 => beqObj f1 f2
  | _, _ => false
def beqArr : List JValue → List JValue → Bool
  | [], [] => true
  | a :: t1, b :: t2 => beqV a b && beqArr t1 t2
  | _, _ => false
def beqObj : List (String × JValue) → List (String × JValue) → Bool
  | [], [] => true
  | (k1, v1) :: t1, (k2, v2) :: t2 => k1 == k2 && beqV v1 v2 && beqObj t1 t2
  | _, _ => false
end

/-- A structural path segment: an object key (string) or an array index
(number), as in the NodeData path type. -/
inductive Seg where
  | str (s : String)
  | idx (n : Nat)
  deriving DecidableEq

/-- One flattened row of a node, as in NodeData text: an optional key, a
value, and a type tag string (the code only compares it to array and
object). -/
structure Row where
  key : Option String
  value : JValue
  type : String

/-- One editable form field: the formState entries of the modal. -/
structure FormEntry where
  key : Option String
  value : String
  deriving DecidableEq

/-- Observable outcome of one applyEdits call: silent return without
touching the store, a committed new document text (setJson and setContents
are called with it), or a caught exception reported through alert. -/
inductive ApplyResult where
  | silent
  | committed (text : String)
  | alertError
  deriving DecidableEq

/-- First-occurrence lookup in an object's field list (JS property read). -/
def jobjLookup : List (String × JValue) → String → Option JValue
  | [], _ => none
  | (k0, v0) :: t, k => if k0 = k then some v0 else jobjLookup t k

/-- Whether a key is present in an object's field list. -/
def hasKey : List (String × JValue) → String → Bool
  | [], _ => false
  | (k0, _) :: t, k => k0 = k || hasKey t k

/-- JS property write on an object: overwrite the first occurrence in place,
otherwise append at the end (insertion order). -/
def jobjSet : List (String × JValue) → String → JValue → List (String × JValue)
  | [], k, v => [(k, v)]
  | (k0, v0) :: t, k, v => if k0 = k then (k0, v) :: t else (k0, v0) :: jobjSet t k v

/-- JS array element write: set in range, otherwise extend, filling the gap
with nulls the way JSON.stringify renders holes. -/
def jarrSet (l : List JValue) (n : Nat) (v : JValue) : List JValue :=
  if n < l.length then l.set n v
  else l ++ List.replicate (n - l.length) JValue.null ++ [v]

mutual
/-- Well-formedness: every object in the value has pairwise distinct keys.
Values produced by JSON.parse always satisfy this, since a JS object cannot
hold a duplicate key. -/
def wfV : JValue → Bool
  | .null => true
  | .bool _ => true
  | .num _ _ => true
  | .str _ => true
  | .arr l => wfArr l
  | .obj m => wfObj m
def wfArr : List JValue → Bool
  | [] => true
  | v :: t => wfV v && wfArr t
def wfObj : List (String × JValue) → Bool
  | [] => true
  | (k, v) :: t => !hasKey t k && wfV v && wfObj t
end

/-! Serialization: an exact model of JSON.stringify(value, null, 2). -/

/-- The decimal digit character of d (for d below 10). -/
def digitChar : Nat → Char
  | 0 => '0' | 1 => '1' | 2 => '2' | 3 => '3' | 4 => '4'
  | 5 => '5' | 6 => '6' | 7 => '7' | 8 => '8' | _ => '9'

/-- Worker for natDigits, recursing on a fuel bound so that the kernel can
evaluate it; any fuel above the number itself is enough. -/
def natDigitsAux : Nat → Nat → List Char
  | 0, _ => []
  | fuel + 1, n =>
    if n < 10 then [digitChar n]
    else natDigitsAux fuel (n / 10) ++ [digitChar (n % 10)]

/-- Decimal digits of a natural number, most significant first, without
leading zeros (except the single digit of zero itself). -/
def natDigits (n : Nat) : List Char :=
  natDigitsAux (n + 1) n

/-- Decimal characters of an integer: optional minus sign then digits. -/
def intChars (i : Int) : List Char :=
  (if i < 0 then ['-'] else []) ++ natDigits i.natAbs

/-- Pad a digit list with leading zero characters up to width w. -/
def padZeros (l : List Char) (w : Nat) : List Char :=
  List.replicate (w - l.length) '0' ++ l

/-- Characters of the number m over 10^e, rendered the way the exact decimal
prints: integer part, then a point and exactly e fraction digits when e is
positive. -/
def numChars (m : Int) (e : Nat) : List Char :=
  if e = 0 then intChars m
  else
    (if m < 0 then ['-'] else []) ++
      natDigits (m.natAbs / 10 ^ e) ++
      '.' :: padZeros (natDigits (m.natAbs % 10 ^ e)) e

/-- Lowercase hexadecimal digit character of d (for d below 16). -/
def hexDigitChar : Nat → Char
  | 0 => '0' | 1 => '1' | 2 => '2' | 3 => '3' | 4 => '4'
  | 5 => '5' | 6 => '6' | 7 => '7' | 8 => '8' | 9 => '9'
  | 10 => 'a' | 11 => 'b' | 12 => 'c' | 13 => 'd' | 14 => 'e' | _ => 'f'

/-- One character, JSON-escaped the way JSON.stringify escapes it: quote,
backslash, the five named control escapes, a u-escape for the remaining
control characters, and everything else verbatim. -/
def escapeChar (c : Char) : List Char :=
  if c = '"' then ['\\', '"']
  else if c = '\\' then ['\\', '\\']
  else if c = '\x08' then ['\\', 'b']
  else if c = '\x09' then ['\\', 't']
  else if c = '\n' then ['\\', 'n']
  else if c = '\x0c' then ['\\', 'f']
  else if c = '\x0d' then ['\\', 'r']
  else if c.toNat < 32 then
    ['\\', 'u', '0', '0', hexDigitChar (c.toNat / 16), hexDigitChar (c.toNat % 16)]
  else [c]

/-- The escaped body of a string literal. -/
def strBody (l : List Char) : List Char :=
  l.foldr (fun c acc => escapeChar c ++ acc) []

/-- A full JSON string literal, quotes included. -/
def strChars (s : String) : List Char :=
  '"' :: (strBody s.data ++ ['"'])

/-- An indentation run of n spaces. -/
def spaces (n : Nat) : List Char :=
  List.replicate n ' '

mutual
/-- Characters of JSON.stringify(v, null, 2) at indentation level ind. -/
def printVal (ind : Nat) : JValue → List Char
  | .null => ['n', 'u', 'l', 'l']
  | .bool b => if b then ['t', 'r', 'u', 'e'] else ['f', 'a', 'l', 's', 'e']
  | .num m e => numChars m e
  | .str s => strChars s
  | .arr [] => ['[', ']']
  | .arr (v0 :: t) =>
    '[' :: '\n' ::
      (spaces (ind + 2) ++ (printItems (ind + 2) (v0 :: t) ++ '\n' :: (spaces ind ++ [']'])))
  | .obj [] => ['\x7b', '\x7d']
  | .obj (f0 :: t) =>
    '\x7b' :: '\n' ::
      (spaces (ind + 2) ++ (printFields (ind + 2) (f0 :: t) ++ '\n' :: (spaces ind ++ ['\x7d'])))
/-- An array body: the elements separated by comma, newline and indentation
(the indentation of the first element is emitted by the caller). -/
def printItems (ind : Nat) : List JValue → List Char
  | [] => []
  | [v] => printVal ind v
  | v :: v2 :: t2 =>
    printVal ind v ++ ',' :: '\n' :: (spaces ind ++ printItems ind (v2 :: t2))
/-- An object body: quoted key, colon and space, value, the fields separated
like array elements. -/
def printFields (ind : Nat) : List (String × JValue) → List Char
  | [] => []
  | [(k, v)] => strChars k ++ ':' :: ' ' :: printVal ind v
  | (k, v) :: f2 :: t2 =>
    strChars k ++ ':' :: ' ' ::
      (printVal ind v ++ ',' :: '\n' :: (spaces ind ++ printFields ind (f2 :: t2)))
end

/-- The serialized document text: JSON.stringify(v, null, 2). -/
def stringify (v : JValue) : String :=
  String.mk (printVal 0 v)

/-! Parsing: a model of JSON.parse, faithful to the RFC 8259 grammar that
JSON.parse implements (whitespace, all escape forms, no leading zeros, no
trailing garbage), with duplicate object keys collapsed the way a JS object
collapses them: last value wins at the first occurrence's position. -/

/-- JSON whitespace: space, tab, line feed, carriage return. -/
def isWs (c : Char) : Bool :=
  c == ' ' || c == '\x09' || c == '\n' || c == '\x0d'

/-- ASCII decimal digit test. -/
def isDigit (c : Char) : Bool :=
  decide (48 ≤ c.toNat ∧ c.toNat ≤ 57)

/-- Drop leading JSON whitespace. -/
def skipWs : List Char → List Char
  | [] => []
  | c :: t => if isWs c then skipWs t else c :: t

/-- Whether every character of the list is JSON whitespace. -/
def wsOnly (l : List Char) : Bool :=
  l.all isWs

/-- Split off the maximal run of leading digits. -/
def takeDigits : List Char → List Char × List Char
  | [] => ([], [])
  | c :: t =>
    if isDigit c then
      let p := takeDigits t
      (c :: p.1, p.2)
    else ([], c :: t)

/-- Numeric value of a digit run (most significant first). -/
def digitsToNat (l : List Char) : Nat :=
  l.foldl (fun acc c => acc * 10 + (c.toNat - 48)) 0

/-- Value of one hexadecimal digit character, if it is one. -/
def hexVal (c : Char) : Option Nat :=
  if 48 ≤ c.toNat ∧ c.toNat ≤ 57 then some (c.toNat - 48)
  else if 97 ≤ c.toNat ∧ c.toNat ≤ 102 then some (c.toNat - 87)
  else if 65 ≤ c.toNat ∧ c.toNat ≤ 70 then some (c.toNat - 55)
  else none

/-- Value of a four-digit hexadecimal escape. -/
def hex4 (a b c d : Char) : Option Nat :=
  match hexVal a, hexVal b, hexVal c, hexVal d with
  | some va, some vb, some vc, some vd => some (((va * 16 + vb) * 16 + vc) * 16 + vd)
  | _, _, _, _ => none

/-- The character denoted by a single-letter escape, if valid. -/
def unescapeChar : Char → Option Char
  | '"' => some '"'
  | '\\' => some '\\'
  | '/' => some '/'
  | 'b' => some '\x08'
  | 'f' => some '\x0c'
  | 'n' => some '\n'
  | 'r' => some '\x0d'
  | 't' => some '\x09'
  | _ => none

mutual
/-- Parse the body of a string literal after the opening quote: returns the
decoded characters and the remainder after the closing quote.  Control
characters must be escaped; all escape forms of the JSON grammar are
accepted. -/
def parseStrBody : List Char → Option (List Char × List Char)
  | [] => none
  | c :: r =>
    if c = '"' then some ([], r)
    else if c = '\\' then parseEsc r
    else if 32 ≤ c.toNat then
      match parseStrBody r with
      | some p => some (c :: p.1, p.2)
      | none => none
    else none
/-- Parse what follows a backslash in a string literal: a u-escape or a
named escape. -/
def parseEsc : List Char → Option (List Char × List Char)
  | [] => none
  | e :: r2 =>
    if e = 'u' then parseHexEsc r2
    else
      match unescapeChar e with
      | some ch =>
        match parseStrBody r2 with
        | some p => some (ch :: p.1, p.2)
        | none => none
      | none => none
/-- Parse the four hexadecimal digits of a u-escape and continue with the
rest of the string body. -/
def parseHexEsc : List Char → Option (List Char × List Char)
  | a :: b :: c2 :: d :: r3 =>
    match hex4 a b c2 d with
    | some n =>
      match parseStrBody r3 with
      | some p => some (Char.ofNat n :: p.1, p.2)
      | none => none
    | none => none
  | _ => none
end

/-- Fold an optional exponent part into the mantissa/scale pair, after the
digits and fraction have been read. -/
def parseExpTail (mant : Int) (scale : Nat) (cs : List Char) :
    Option ((Int × Nat) × List Char) :=
  let p : Int × List Char :=
    match cs with
    | '+' :: r => (1, r)
    | '-' :: r => (-1, r)
    | _ => (1, cs)
  let q := takeDigits p.2
  match q.1 with
  | [] => none
  | _ :: _ =>
    let ex : Int := p.1 * (digitsToNat q.1 : Int)
    let sc : Int := (scale : Int) - ex
    if sc ≤ 0 then some ((mant * 10 ^ (-sc).toNat, 0), q.2)
    else some ((mant, sc.toNat), q.2)

/-- Dispatch on the presence of an exponent marker. -/
def parseExp (mant : Int) (scale : Nat) (cs : List Char) :
    Option ((Int × Nat) × List Char) :=
  match cs with
  | [] => some ((mant, scale), [])
  | c :: r =>
    if c = 'e' ∨ c = 'E' then parseExpTail mant scale r
    else some ((mant, scale), c :: r)

/-- Parse an unsigned JSON number (digits, optional fraction, optional
exponent), rejecting leading zeros as the grammar does. -/
def parseUnsigned (cs : List Char) : Option ((Int × Nat) × List Char) :=
  let p := takeDigits cs
  match p.1 with
  | [] => none
  | d :: ds =>
    if d = '0' ∧ ds ≠ [] then none
    else
      let ipart := digitsToNat (d :: ds)
      match p.2 with
      | [] => parseExp (ipart : Int) 0 []
      | c :: r2 =>
        if c = '.' then
          let q := takeDigits r2
          match q.1 with
          | [] => none
          | _ :: _ =>
            parseExp ((ipart * 10 ^ q.1.length + digitsToNat q.1 : Nat) : Int) q.1.length q.2
        else parseExp (ipart : Int) 0 (c :: r2)

/-- Parse a JSON number with optional sign. -/
def parseNum (cs : List Char) : Option ((Int × Nat) × List Char) :=
  match cs with
  | [] => none
  | c :: r =>
    if c = '-' then
      match parseUnsigned r with
      | some ((m, e), r2) => some ((-m, e), r2)
      | none => none
    else parseUnsigned (c :: r)

/-- Consume an expected literal tail (the rest of null, true or false),
returning the remainder on success. -/
def keyword : List Char → List Char → Option (List Char)
  | [], cs => some cs
  | k :: kt, c :: ct => if c = k then keyword kt ct else none
  | _ :: _, [] => none

mutual
/-- Parse one JSON value after skipping leading whitespace; fuel bounds the
recursion depth and any fuel above twice the input length is enough. -/
def parseVal : Nat → List Char → Option (JValue × List Char)
  | 0, _ => none
  | fuel + 1, cs =>
    match skipWs cs with
    | [] => none
    | c :: r =>
      if c = 'n' then
        match keyword ['u', 'l', 'l'] r with
        | some r2 => some (.null, r2)
        | none => none
      else if c = 't' then
        match keyword ['r', 'u', 'e'] r with
        | some r2 => some (.bool true, r2)
        | none => none
      else if c = 'f' then
        match keyword ['a', 'l', 's', 'e'] r with
        | some r2 => some (.bool false, r2)
        | none => none
      else if c = '"' then
        match parseStrBody r with
        | some (l, r2) => some (.str (String.mk l), r2)
        | none => none
      else if c = '[' then
        match skipWs r with
        | ']' :: r2 => some (.arr [], r2)
        | cs2 =>
          match parseItems fuel cs2 with
          | some (l, r2) => some (.arr l, r2)
          | none => none
      else if c = '\x7b' then
        match skipWs r with
        | '\x7d' :: r2 => some (.obj [], r2)
        | cs2 =>
          match parseFields fuel [] cs2 with
          | some (m, r2) => some (.obj m, r2)
          | none => none
      else
        match parseNum (c :: r) with
        | some ((m, e), r2) => some (.num m e, r2)
        | none => none
/-- Parse one or more comma-separated array elements and the closing
bracket. -/
def parseItems : Nat → List Char → Option (List JValue × List Char)
  | 0, _ => none
  | fuel + 1, cs =>
    match parseVal fuel cs with
    | none => none
    | some (v, r) =>
      match skipWs r with
      | ',' :: r2 =>
        match parseItems fuel r2 with
        | some (l, r3) => some (v :: l, r3)
        | none => none
      | ']' :: r2 => some ([v], r2)
      | _ => none
/-- Parse one or more comma-separated object members and the closing brace,
collapsing duplicate keys into the accumulator the way JS property
assignment does. -/
def parseFields : Nat → List (String × JValue) → List Char →
    Option (List (String × JValue) × List Char)
  | 0, _, _ => none
  | fuel + 1, acc, cs =>
    match skipWs cs with
    | '"' :: r =>
      match parseStrBody r with
      | none => none
      | some (kl, r1) =>
        match skipWs r1 with
        | ':' :: r2 =>
          match parseVal fuel r2 with
          | none => none
          | some (v, r3) =>
            match skipWs r3 with
            | ',' :: r4 => parseFields fuel (jobjSet acc (String.mk kl) v) r4
            | '\x7d' :: r4 => some (jobjSet acc (String.mk kl) v, r4)
            | _ => none
        | _ => none
    | _ => none
end

/-- JSON.parse: parse a complete document, requiring the remainder after the
value to be whitespace only. -/
def jsonParse (s : String) : Option JValue :=
  match parseVal (2 * s.data.length + 2) s.data with
  | some (v, r) => if skipWs r = [] then some v else none
  | none => none

/-- The parseValue helper of the modal: JSON.parse with fallback to the raw
string when parsing throws. -/
def parseValue (val : String) : JValue :=
  match jsonParse val with
  | some v => v
  | none => .str val

/-! The modal's other functions, translated from
src/src/features/modals/NodeModal/index.tsx. -/

/-- JS truthiness of an optional string key: null/undefined and the empty
string are falsy, every other string is truthy. -/
def keyTruthy : Option String → Bool
  | none => false
  | some s => !(s == "")

/-- The object built by the forEach of normalizeNodeData: rows of type
array or object are skipped, rows with a truthy key are assigned in order
(JS property write, so a duplicate key overwrites in place). -/
def buildFields (rows : List Row) : List (String × JValue) :=
  rows.foldl
    (fun acc r =>
      if r.type ≠ "array" ∧ r.type ≠ "object" then
        match r.key with
        | some k => if k = "" then acc else jobjSet acc k r.value
        | none => acc
      else acc)
    []

/-- The row normalizer, at the level of the value whose rendering it
returns: no rows give an empty object, a single row with a falsy key gives
that row's value unwrapped, and otherwise the scalar rows with truthy keys
are folded into an object. -/
def normalizeNodeData (nodeRows : List Row) : JValue :=
  match nodeRows with
  | [] => .obj []
  | [r] => if keyTruthy r.key then .obj (buildFields [r]) else r.value
  | rs => .obj (buildFields rs)

/-- Rendering of one path segment the way the template literal renders it:
numbers as their digits, strings wrapped in double quotes. -/
def segFmt : Seg → String
  | .idx n => String.mk (natDigits n)
  | .str s => "\"" ++ s ++ "\""

/-- Array.prototype.join with the bracket-pair separator used by
jsonPathToString. -/
def joinSegs : List String → String
  | [] => ""
  | [x] => x
  | x :: y :: t => x ++ "][" ++ joinSegs (y :: t)

/-- The path formatter jsonPathToString: a dollar for a missing or empty
path, otherwise the rendered segments joined and wrapped in brackets. -/
def jsonPathToString (path : Option (List Seg)) : String :=
  match path with
  | none => "$"
  | some [] => "$"
  | some (s :: t) => "$[" ++ joinSegs ((s :: t).map segFmt) ++ "]"

/-- JS String() coercion of a scalar row value (container rows are filtered
out before this is applied, so their coercion is never observed). -/
def jsString : JValue → String
  | .null => "null"
  | .bool b => if b then "true" else "false"
  | .num m e => String.mk (numChars m e)
  | .str s => s
  | .arr _ => ""
  | .obj _ => ""

/-- The seeded text of one row value in the useEffect: the empty string for
null, otherwise the String() coercion. -/
def seedStr (v : JValue) : String :=
  match v with
  | .null => ""
  | v => jsString v

/-- The form state seeded from a node's rows by the useEffect: container
rows filtered out, keys defaulted to null, values stringified. -/
def seedForm (rows : List Row) : List FormEntry :=
  (rows.filter fun r => r.type ≠ "array" ∧ r.type ≠ "object").map
    fun r => ⟨r.key, seedStr r.value⟩

/-- The JS property key a segment denotes (a number coerces to its decimal
string when used as an object key). -/
def segKey : Seg → String
  | .str s => s
  | .idx n => String.mk (natDigits n)

/-- The canonical array index denoted by a string key, if any: the decimal
digits, without a leading zero, of a number below 2^32 - 1. -/
def canonIdx (s : String) : Option Nat :=
  match s.data with
  | [] => none
  | c :: t =>
    if (c :: t).all isDigit ∧ (c = '0' → t = []) ∧ digitsToNat (c :: t) < 4294967295 then
      some (digitsToNat (c :: t))
    else none

/-- One optional-chained property read, acc?.[seg], on a JSON value: object
key lookup, array element at an index or canonical index string, string
character access, undefined (none) everywhere else.  Non-index own
properties of arrays and strings, such as length, are outside the model. -/
def jindex (v : JValue) (s : Seg) : Option JValue :=
  match v with
  | .obj f => jobjLookup f (segKey s)
  | .arr l =>
    match s with
    | .idx n => l.get? n
    | .str k =>
      match canonIdx k with
      | some n => l.get? n
      | none => none
  | .str st =>
    match s with
    | .idx n => (st.data.get? n).map fun c => .str (String.mk [c])
    | .str k =>
      match canonIdx k with
      | some n => (st.data.get? n).map fun c => .str (String.mk [c])
      | none => none
  | _ => none

/-- The reduce walk acc?.[seg] over a whole segment list. -/
def walkPath (v : JValue) : List Seg → Option JValue
  | [] => some v
  | s :: t =>
    match jindex v s with
    | some c => walkPath c t
    | none => none

/-- Assignment of a string-keyed property, target[k] = nv, on a container:
objects overwrite in place or append; arrays write the element at a
canonical index (extending with nulls) and otherwise gain only a non-index
property that serialization drops.  Never applied to other targets. -/
def setProp (t : JValue) (k : String) (nv : JValue) : JValue :=
  match t with
  | .obj f => .obj (jobjSet f k nv)
  | .arr l =>
    match canonIdx k with
    | some n => .arr (jarrSet l n nv)
    | none => .arr l
  | _ => t

/-- Outcome of the strict-mode assignment parent[lastSeg] = newVal. -/
inductive AssignOut where
  | err
  | ok (v : JValue)

/-- The assignment parent[lastSeg] = newVal on a resolved parent: objects
and arrays accept it; assigning a property on null or on a primitive throws
a TypeError in strict mode, which the surrounding catch reports. -/
def assignSeg (parent : JValue) (s : Seg) (nv : JValue) : AssignOut :=
  match parent with
  | .obj f => .ok (.obj (jobjSet f (segKey s) nv))
  | .arr l =>
    match s with
    | .idx n => .ok (.arr (jarrSet l n nv))
    | .str k =>
      match canonIdx k with
      | some n => .ok (.arr (jarrSet l n nv))
      | none => .ok (.arr l)
  | _ => .err

/-- Rebuild a container with the child at a segment replaced; the segment
resolved to that child, so the in-place mutation of the child is this
functional update.  (A string never survives an assignment below it, so its
branch is inert.) -/
def jreplace (v : JValue) (s : Seg) (c : JValue) : JValue :=
  match v with
  | .obj f => .obj (jobjSet f (segKey s) c)
  | .arr l =>
    match s with
    | .idx n => .arr (jarrSet l n c)
    | .str k =>
      match canonIdx k with
      | some n => .arr (jarrSet l n c)
      | none => .arr l
  | _ => v

/-- Outcome of walking the parent path and performing the final assignment:
skip when the optional chain produced undefined (the code's guard then
falls through silently), err when the assignment throws, ok with the
updated document. -/
inductive MutOut where
  | skip
  | err
  | ok (v : JValue)

/-- Walk the parent path with optional chaining, then assign the new value
at the last segment, rebuilding the spine functionally. -/
def assignAtPath (doc : JValue) : List Seg → Seg → JValue → MutOut
  | [], last, nv =>
    match assignSeg doc last nv with
    | .err => .err
    | .ok v => .ok v
  | s :: rest, last, nv =>
    match jindex doc s with
    | none => .skip
    | some child =>
      match assignAtPath child rest last nv with
      | .skip => .skip
      | .err => .err
      | .ok c2 => .ok (jreplace doc s c2)

/-- Functional update of the value at a full, successfully walked path. -/
def setAtPath (doc : JValue) : List Seg → JValue → JValue
  | [], nv => nv
  | s :: rest, nv =>
    match jindex doc s with
    | none => doc
    | some child => jreplace doc s (setAtPath child rest nv)

/-- The object-like patch loop (the forEach over formState): each form
entry with a truthy key assigns its coerced value onto the target, in
order. -/
def patchTarget (t : JValue) : List FormEntry → JValue
  | [] => t
  | f :: rest =>
    patchTarget
      (match f.key with
       | some k => if k = "" then t else setProp t k (parseValue f.value)
       | none => t)
      rest

/-- The guard target && typeof target === "object": among JSON values
exactly arrays and objects pass it (null is falsy, primitives have other
typeof results). -/
def isContainer : JValue → Bool
  | .arr _ => true
  | .obj _ => true
  | _ => false

/-- The single-unnamed-value test of applyEdits: exactly one row whose key
is loosely equal to null (the empty string is not). -/
def isSingleUnnamed (rows : List Row) : Bool :=
  match rows with
  | [r] => r.key == none
  | _ => false

/-- The expression formState[0]?.value ?? "". -/
def headValue (fs : List FormEntry) : String :=
  match fs with
  | [] => ""
  | f :: _ => f.value

/-- The body of applyEdits after the document text has parsed: branch on
the node kind, resolve, mutate a working copy, and commit the
re-serialization; a failed resolution falls through silently and a throwing
assignment is caught into an alert. -/
def applyParsed (parsed : JValue) (rows : List Row) (path : List Seg)
    (formState : List FormEntry) : ApplyResult :=
  if isSingleUnnamed rows then
    let newVal := parseValue (headValue formState)
    match path with
    | [] => .committed (stringify newVal)
    | _ :: _ =>
      match path.getLast? with
      | none => .silent
      | some last =>
        match assignAtPath parsed path.dropLast last newVal with
        | .skip => .silent
        | .err => .alertError
        | .ok doc2 => .committed (stringify doc2)
  else
    match walkPath parsed path with
    | none => .silent
    | some t =>
      if isContainer t then .committed (stringify (setAtPath parsed path (patchTarget t formState)))
      else .silent

/-- The applyEdits handler: read the document text, return silently when it
is empty, alert when it does not parse, and otherwise run the patch on the
parsed working copy. -/
def applyEdits (raw : String) (rows : List Row) (path : List Seg)
    (formState : List FormEntry) : ApplyResult :=
  if raw = "" then .silent
  else
    match jsonParse raw with
    | none => .alertError
    | some parsed => applyParsed parsed rows path formState

/-- The authoritative document text after one applyEdits call: replaced on
commit, untouched otherwise. -/
def resultingDoc (raw : String) (r : ApplyResult) : String :=
  match r with
  | .committed t => t
  | _ => raw

/-! Reference definitions written from the claims' own words (the second
side of the refinement claims), and the spec-modelled node derivation for
the code that lives outside src. -/

/-- Bracketed concatenation of rendered segments: the wording of C9, each
segment in order wrapped in brackets. -/
def concatBrackets : List Seg → String
  | [] => ""
  | s :: t => "[" ++ segFmt s ++ "]" ++ concatBrackets t

/-- The reference path rendering of C9: a dollar followed by each segment
wrapped in brackets. -/
def pathFormatSpec (segs : List Seg) : String :=
  "$" ++ concatBrackets segs

/-- The mapping branch of the C8 reference normalizer, as the claim words
it: insert key and value for every row of scalar kind, in row order, later
duplicates overwriting (a null key cannot be inserted into a string-keyed
mapping and is dropped). -/
def refFieldsC8 (rows : List Row) : List (String × JValue) :=
  rows.foldl
    (fun acc r =>
      if r.type ≠ "array" ∧ r.type ≠ "object" then
        match r.key with
        | some k => jobjSet acc k r.value
        | none => acc
      else acc)
    []

/-- The C8 reference normalizer, as the claim words it: empty input gives
the empty object, exactly one row with a null key gives that row's value
as-is, otherwise the scalar rows are folded into a mapping. -/
def normalizeRefC8 (rows : List Row) : JValue :=
  match rows with
  | [] => .obj []
  | [r] => if r.key = none then r.value else .obj (refFieldsC8 [r])
  | rs => .obj (refFieldsC8 rs)

/-- The amended C8 mapping branch: only rows of scalar kind whose key is
truthy (non-null and non-empty) are inserted. -/
def refFieldsC8A (rows : List Row) : List (String × JValue) :=
  (rows.filter fun r => r.type ≠ "array" ∧ r.type ≠ "object" ∧ keyTruthy r.key = true).foldl
    (fun acc r =>
      match r.key with
      | some k => jobjSet acc k r.value
      | none => acc)
    []

/-- The amended C8 reference normalizer: the unwrapped single-row case
triggers on a falsy key (null or the empty string), and the mapping branch
keeps only truthy-keyed scalar rows, matching JS truthiness. -/
def normalizeRefC8A (rows : List Row) : JValue :=
  match rows with
  | [] => .obj []
  | [r] => if keyTruthy r.key = false then r.value else .obj (refFieldsC8A [r])
  | rs => .obj (refFieldsC8A rs)

/-- The value of the last form entry carrying the given truthy key, if any:
the entry whose assignment wins in the patch loop. -/
def lastTruthyVal (k : String) : List FormEntry → Option String
  | [] => none
  | f :: rest =>
    match lastTruthyVal k rest with
    | some v => some v
    | none => if f.key = some k ∧ k ≠ "" then some f.value else none

/-- The patch loop specialized to an object target, where it stays an
object and applies property writes over the form entries in order. -/
def patchFields (fields : List (String × JValue)) : List FormEntry →
    List (String × JValue)
  | [] => fields
  | f :: rest =>
    patchFields
      (match f.key with
       | some k => if k = "" then fields else jobjSet fields k (parseValue f.value)
       | none => fields)
      rest

/-- Modelled from the spec: the type tag the external graph builder attaches
to a row holding this value (the code only ever distinguishes array and
object from the rest). -/
def typeName : JValue → String
  | .null => "null"
  | .bool _ => "boolean"
  | .num _ _ => "number"
  | .str _ => "string"
  | .arr _ => "array"
  | .obj _ => "object"

/-- Modelled from the spec: the flattened rows of the node selected at a
path, produced by the external node-selection mechanism (absent from src):
an object node lists its fields in order, any other value is a single
unnamed row. -/
def modelRows (t : JValue) : List Row :=
  match t with
  | .obj fields => fields.map fun p => ⟨some p.1, p.2, typeName p.2⟩
  | v => [⟨none, v, typeName v⟩]

/-- One structural, container-only indexing step: like jindex but only
into arrays and objects, the only steps a selected node's path contains. -/
def jindexC (v : JValue) (s : Seg) : Option JValue :=
  match v with
  | .obj _ => jindex v s
  | .arr _ => jindex v s
  | _ => none

/-- Modelled from the spec: a node location, i.e. a path that walks from
the root through containers only, as every path produced at node-selection
time does. -/
def resolveNode (v : JValue) : List Seg → Option JValue
  | [] => some v
  | s :: t =>
    match jindexC v s with
    | some c => resolveNode c t
    | none => none

/-- Every scalar row of the node seeds a text that coerces back to exactly
the row's value: the hypothesis under which the round trip holds. -/
def rowsCoerceBack (t : JValue) : Prop :=
  ∀ r ∈ modelRows t, r.type ≠ "array" → r.type ≠ "object" →
    parseValue (seedStr r.value) = r.value

/-- A remainder that cannot extend a rendered number: empty, or starting
with a character that is neither a digit nor a point nor an exponent
marker.  Every context in which a rendered value is parsed satisfies it. -/
def boundary (cs : List Char) : Bool :=
  match cs with
  | [] => true
  | c :: _ => !(isDigit c || c = '.' || c = 'e' || c = 'E')

/-! Theorems. -/

theorem beqV_iff_eq : ∀ (n : Nat) (a b : JValue), sizeOf a ≤ n → (beqV a b = true ↔ a = b) := by
  intro n
  induction n with
  | zero =>
    intro a b h
    cases a <;> simp_all
  | succ n ih =>
    have harr : ∀ (l1 l2 : List JValue), sizeOf l1 ≤ n + 1 →
        (beqArr l1 l2 = true ↔ l1 = l2) := by
      intro l1
      induction l1 with
      | nil => intro l2 _; cases l2 <;> simp [beqArr]
      | cons a t iht =>
        intro l2 hsz
        cases l2 with
        | nil => simp [beqArr]
        | cons b t2 =>
          have h1 : sizeOf a ≤ n := by simp at hsz; omega
          have h2 : sizeOf t ≤ n + 1 := by simp at hsz; omega
          simp [beqArr, ih a b h1, iht t2 h2]
    have hobj : ∀ (f1 f2 : List (String × JValue)), sizeOf f1 ≤ n + 1 →
        (beqObj f1 f2 = true ↔ f1 = f2) := by
      intro f1
      induction f1 with
      | nil => intro f2 _; cases f2 <;> simp [beqObj]
      | cons a t iht =>
        intro f2 hsz
        cases f2 with
        | nil => simp [beqObj]
        | cons b t2 =>
          obtain ⟨k1, v1⟩ := a
          obtain ⟨k2, v2⟩ := b
          have h1 : sizeOf v1 ≤ n := by simp at hsz; omega
          have h2 : sizeOf t ≤ n + 1 := by simp at hsz; omega
          simp [beqObj, ih v1 v2 h1, iht t2 h2]
    intro a b h
    cases a <;> cases b <;> simp [beqV]
    case arr.arr l1 l2 =>
      have hsz : sizeOf l1 ≤ n + 1 := by simp at h; omega
      exact harr l1 l2 hsz
    case obj.obj f1 f2 =>
      have hsz : sizeOf f1 ≤ n + 1 := by simp at h; omega
      exact hobj f1 f2 hsz

instance : DecidableEq JValue := fun a b =>
  decidable_of_iff (beqV a b = true) (beqV_iff_eq (sizeOf a) a b (Nat.le_refl _))

/-- A document text that parses is not the empty string. -/
theorem ne_empty_of_parses (raw : String) (doc : JValue)
    (hparse : jsonParse raw = some doc) : ¬raw = "" := by
  intro h
  rw [h] at hparse
  have hnone : jsonParse "" = none := by decide
  rw [hnone] at hparse
  exact Option.noConfusion hparse

/-- The joined bracket-wrapped rendering coincides with the bracketed
concatenation on a nonempty segment list. -/
theorem joinSegs_brackets : ∀ (t : List Seg) (s : Seg),
    "[" ++ joinSegs ((s :: t).map segFmt) ++ "]" = concatBrackets (s :: t) := by
  intro t
  induction t with
  | nil =>
    intro s
    simp [joinSegs, concatBrackets, String.append_empty]
  | cons y t2 ih =>
    intro s
    have hsplit : ("][" : String) = "]" ++ "[" := rfl
    simp only [List.map_cons, joinSegs, concatBrackets] at ih ⊢
    rw [← ih y]
    simp only [String.append_assoc]
    rw [hsplit]
    simp only [String.append_assoc]

/-- C9: the path formatter maps a missing or empty path to the dollar sign,
and a non-empty path to the dollar sign followed by each segment in order
wrapped in brackets, integer segments rendered as bare digits and string
segments as double-quoted literals; the two-segment example path customer,
0 renders exactly as the claim states. -/
theorem C9_path_formatter :
    jsonPathToString none = "$" ∧
    jsonPathToString (some []) = "$" ∧
    (∀ segs : List Seg, segs ≠ [] → jsonPathToString (some segs) = pathFormatSpec segs) ∧
    jsonPathToString (some [.str "customer", .idx 0]) = "$[\"customer\"][0]" := by
  refine ⟨rfl, rfl, ?_, by decide⟩
  intro segs hne
  match segs, hne with
  | s :: t, _ =>
    show "$[" ++ joinSegs ((s :: t).map segFmt) ++ "]" = pathFormatSpec (s :: t)
    rw [pathFormatSpec, ← joinSegs_brackets t s]
    have h1 : ("$[" : String) = "$" ++ "[" := rfl
    rw [h1]
    simp only [String.append_assoc]

/-- C9 witness: the general rendering equation applied at the concrete
two-segment path of the claim's example. -/
theorem C9_path_formatter_witness :
    jsonPathToString (some [Seg.str "customer", Seg.idx 0]) =
      pathFormatSpec [Seg.str "customer", Seg.idx 0] :=
  C9_path_formatter.2.2.1 _ (by decide)

/-- The forEach object building of the code equals the filtered fold of the
amended reference, for any accumulator. -/
theorem buildFields_filter (rows : List Row) : ∀ (acc : List (String × JValue)),
    rows.foldl
      (fun acc r =>
        if r.type ≠ "array" ∧ r.type ≠ "object" then
          match r.key with
          | some k => if k = "" then acc else jobjSet acc k r.value
          | none => acc
        else acc) acc =
    (rows.filter fun r =>
        r.type ≠ "array" ∧ r.type ≠ "object" ∧ keyTruthy r.key = true).foldl
      (fun acc r =>
        match r.key with
        | some k => jobjSet acc k r.value
        | none => acc) acc := by
  induction rows with
  | nil => intro acc; rfl
  | cons r t ih =>
    intro acc
    by_cases ha : r.type = "array"
    · simp [ha, List.filter_cons, ih]
    · by_cases hb : r.type = "object"
      · simp [ha, hb, List.filter_cons, ih]
      · rcases hk : r.key with _ | k
        · simp [ha, hb, hk, keyTruthy, List.filter_cons, ih]
        · by_cases h2 : k = ""
          · simp [ha, hb, hk, h2, keyTruthy, List.filter_cons, ih]
          · simp [ha, hb, hk, h2, keyTruthy, List.filter_cons, ih]

/-- C8 (amended): the row normalizer equals the reference definition with
JS truthiness in place of null tests: an empty row list gives the empty
object; exactly one row with a falsy key (null or the empty string) gives
that row's value as-is; otherwise the rows of scalar kind with truthy keys
are inserted in row order, later duplicate keys overwriting. -/
theorem C8_normalizer_amended (rows : List Row) :
    normalizeNodeData rows = normalizeRefC8A rows := by
  match rows with
  | [] => rfl
  | [r] =>
    have hb : buildFields [r] = refFieldsC8A [r] := by
      rw [buildFields, refFieldsC8A]
      exact buildFields_filter [r] []
    by_cases hk : keyTruthy r.key = true
    · simp [normalizeNodeData, normalizeRefC8A, hk, hb]
    · simp [normalizeNodeData, normalizeRefC8A, hk]
  | r1 :: r2 :: t =>
    have hb : buildFields (r1 :: r2 :: t) = refFieldsC8A (r1 :: r2 :: t) := by
      rw [buildFields, refFieldsC8A]
      exact buildFields_filter (r1 :: r2 :: t) []
    show JValue.obj (buildFields (r1 :: r2 :: t)) = JValue.obj (refFieldsC8A (r1 :: r2 :: t))
    rw [hb]

/-- C8 counterexample: on the single scalar row with the empty-string key,
the code's normalizer unwraps the value (the key is falsy but not null),
while the claim's reference keeps a one-entry mapping, so they differ. -/
theorem C8_counterexample :
    normalizeNodeData [⟨some "", .num 1 0, "number"⟩] = .num 1 0 ∧
    normalizeRefC8 [⟨some "", .num 1 0, "number"⟩] = .obj [("", .num 1 0)] ∧
    normalizeNodeData [⟨some "", .num 1 0, "number"⟩] ≠
      normalizeRefC8 [⟨some "", .num 1 0, "number"⟩] := by
  refine ⟨by decide, by decide, by decide⟩

/-- C7: the value coercer is total: it returns the strict JSON parse of its
input whenever that succeeds and otherwise falls back to the raw input as a
plain string, never failing; the claim's example coercions hold. -/
theorem C7_value_coercer :
    (∀ s v, jsonParse s = some v → parseValue s = v) ∧
    (∀ s, jsonParse s = none → parseValue s = .str s) ∧
    parseValue "123" = .num 123 0 ∧
    parseValue "true" = .bool true ∧
    parseValue "null" = .null ∧
    parseValue "3.14" = .num 314 2 ∧
    parseValue "[1,2]" = .arr [.num 1 0, .num 2 0] ∧
    parseValue "\x7b\"x\":1\x7d" = .obj [("x", .num 1 0)] ∧
    parseValue "hello" = .str "hello" := by
  refine ⟨?_, ?_, by decide, by decide, by decide, by decide, by decide, by decide, by decide⟩
  · intro s v h
    simp [parseValue, h]
  · intro s h
    simp [parseValue, h]

/-- C7 witness: the two coercion equations applied at concrete inputs. -/
theorem C7_value_coercer_witness :
    parseValue "true" = .bool true ∧ parseValue "hello" = .str "hello" :=
  ⟨C7_value_coercer.1 "true" (.bool true) (by decide),
   C7_value_coercer.2.1 "hello" (by decide)⟩

/-- C1: for every document text that parses, calling applyEdits for a
single-scalar node (exactly one row, key null) with the empty structural
path commits a new document that is exactly the serialized coercion of the
first form value: the entire document is replaced. -/
theorem C1_root_replacement (raw : String) (doc : JValue) (rows : List Row)
    (f : FormEntry) (fs : List FormEntry)
    (hparse : jsonParse raw = some doc) (hrows : isSingleUnnamed rows = true) :
    applyEdits raw rows [] (f :: fs) = .committed (stringify (parseValue f.value)) := by
  have hraw := ne_empty_of_parses raw doc hparse
  simp [applyEdits, hraw, hparse, applyParsed, hrows, headValue]

/-- C1 witness: the claim's example, the document with one field a mapped
to 1 and the edited value 42, commits the whole-document replacement 42. -/
theorem C1_root_replacement_witness :
    applyEdits "\x7b\"a\":1\x7d" [⟨none, .num 1 0, "number"⟩] [] [⟨none, "42"⟩] =
      .committed "42" := by
  have h := C1_root_replacement "\x7b\"a\":1\x7d" (.obj [("a", .num 1 0)])
    [⟨none, .num 1 0, "number"⟩] ⟨none, "42"⟩ [] (by decide) (by decide)
  exact h.trans (by decide)

/-- A failed optional-chain walk of the parent path makes the assignment a
skip. -/
theorem assignAtPath_skip_of_walk_none (pp : List Seg) :
    ∀ (doc : JValue) (last : Seg) (nv : JValue), walkPath doc pp = none →
      assignAtPath doc pp last nv = .skip := by
  induction pp with
  | nil =>
    intro doc last nv h
    simp [walkPath] at h
  | cons s rest ih =>
    intro doc last nv h
    simp only [walkPath] at h
    cases hj : jindex doc s with
    | none => simp [assignAtPath, hj]
    | some c =>
      rw [hj] at h
      have h2 : walkPath c rest = none := h
      simp [assignAtPath, hj, ih c last nv h2]

/-- C3: for a valid document and a non-empty path whose resolution fails
(the parent chain of a single-scalar node, or the target walk of an
object-like node, yields undefined), applyEdits is a silent no-op: it
returns silently, surfaces no failure, and the authoritative document text
is unchanged. -/
theorem C3_unresolved_silent_noop (raw : String) (doc : JValue) (rows : List Row)
    (path : List Seg) (fs : List FormEntry)
    (hparse : jsonParse raw = some doc) (hne : path ≠ [])
    (hfail : (isSingleUnnamed rows = true ∧ walkPath doc path.dropLast = none) ∨
             (isSingleUnnamed rows = false ∧ walkPath doc path = none)) :
    applyEdits raw rows path fs = .silent ∧
    resultingDoc raw (applyEdits raw rows path fs) = raw := by
  have hraw := ne_empty_of_parses raw doc hparse
  have hmain : applyEdits raw rows path fs = .silent := by
    rcases hfail with ⟨hs, hw⟩ | ⟨hs, hw⟩
    · obtain ⟨p, ps, rfl⟩ : ∃ p ps, path = p :: ps := by
        cases path with
        | nil => exact absurd rfl hne
        | cons p ps => exact ⟨p, ps, rfl⟩
      simp only [applyEdits, if_neg hraw, hparse, applyParsed, hs, if_pos]
      cases hl : (p :: ps).getLast? with
      | none => simp [List.getLast?_eq_none_iff] at hl
      | some last =>
        simp [assignAtPath_skip_of_walk_none _ _ _ _ hw]
    · simp [applyEdits, hraw, hparse, applyParsed, hs, hw]
  exact ⟨hmain, by simp [resultingDoc, hmain]⟩

/-- C3 witness: the claim's example, the document with one field a and the
unresolvable path b, c, for an object-like node: the call is silent and
the text unchanged. -/
theorem C3_unresolved_silent_noop_witness :
    applyEdits "\x7b\"a\":1\x7d" [⟨some "x", .null, "null"⟩, ⟨some "y", .null, "null"⟩]
      [.str "b", .str "c"] [⟨some "k", "1"⟩] = .silent ∧
    resultingDoc "\x7b\"a\":1\x7d"
      (applyEdits "\x7b\"a\":1\x7d" [⟨some "x", .null, "null"⟩, ⟨some "y", .null, "null"⟩]
        [.str "b", .str "c"] [⟨some "k", "1"⟩]) = "\x7b\"a\":1\x7d" :=
  C3_unresolved_silent_noop "\x7b\"a\":1\x7d" (.obj [("a", .num 1 0)])
    [⟨some "x", .null, "null"⟩, ⟨some "y", .null, "null"⟩]
    [.str "b", .str "c"] [⟨some "k", "1"⟩]
    (by decide) (by decide) (Or.inr ⟨by decide, by decide⟩)

/-- C5 (amended): a missing or empty document text aborts silently with no
mutation (no user-visible report), while a non-empty text that fails to
parse aborts with no mutation and surfaces the failure through the alert. -/
theorem C5_invalid_document (raw : String) (rows : List Row) (path : List Seg)
    (fs : List FormEntry) :
    (raw = "" → applyEdits raw rows path fs = .silent) ∧
    (¬raw = "" → jsonParse raw = none → applyEdits raw rows path fs = .alertError) ∧
    (jsonParse raw = none → resultingDoc raw (applyEdits raw rows path fs) = raw) := by
  refine ⟨?_, ?_, ?_⟩
  · intro h
    simp [applyEdits, h]
  · intro h hp
    simp [applyEdits, h, hp]
  · intro hp
    by_cases h : raw = ""
    · simp [applyEdits, h, resultingDoc]
    · simp [applyEdits, h, hp, resultingDoc]

/-- C5 counterexample: the empty document text returns silently, so the
InvalidDocument failure is not surfaced to the caller there, contrary to
the claim (a parse failure, by contrast, alerts). -/
theorem C5_counterexample :
    applyEdits "" [] [] [] = .silent ∧ ApplyResult.silent ≠ ApplyResult.alertError := by
  refine ⟨by decide, by decide⟩

/-- C5 witness: the amended behavior at two concrete inputs, the empty text
and a non-JSON text. -/
theorem C5_invalid_document_witness :
    applyEdits "" [] [] [] = .silent ∧ applyEdits "hello" [] [] [] = .alertError :=
  ⟨(C5_invalid_document "" [] [] []).1 rfl,
   (C5_invalid_document "hello" [] [] []).2.1 (by decide) (by decide)⟩

/-- Writing a key makes it readable with the written value. -/
theorem jobjLookup_jobjSet_self (f : List (String × JValue)) (k : String) (v : JValue) :
    jobjLookup (jobjSet f k v) k = some v := by
  induction f with
  | nil => simp [jobjSet, jobjLookup]
  | cons p t ih =>
    obtain ⟨k0, v0⟩ := p
    by_cases h : k0 = k
    · simp [jobjSet, jobjLookup, h]
    · simp [jobjSet, jobjLookup, h, ih]

/-- Writing a key leaves every other key's value readable unchanged. -/
theorem jobjLookup_jobjSet_other (f : List (String × JValue)) (k k2 : String) (v : JValue)
    (h : k2 ≠ k) : jobjLookup (jobjSet f k v) k2 = jobjLookup f k2 := by
  induction f with
  | nil => simp [jobjSet, jobjLookup, Ne.symm h]
  | cons p t ih =>
    obtain ⟨k0, v0⟩ := p
    by_cases h0 : k0 = k
    · subst h0
      simp [jobjSet, jobjLookup, Ne.symm h]
    · by_cases h2 : k0 = k2
      · simp [jobjSet, jobjLookup, h0, h2, h]
      · simp [jobjSet, jobjLookup, h0, h2, ih]

/-- On an object target the patch loop stays an object and equals the
field-level loop. -/
theorem patchTarget_obj (fs : List FormEntry) : ∀ (fields : List (String × JValue)),
    patchTarget (.obj fields) fs = .obj (patchFields fields fs) := by
  induction fs with
  | nil => intro fields; rfl
  | cons f rest ih =>
    intro fields
    rcases hk : f.key with _ | k
    · simp [patchTarget, patchFields, hk, ih]
    · by_cases h2 : k = ""
      · simp [patchTarget, patchFields, hk, h2, ih]
      · simp [patchTarget, patchFields, hk, h2, setProp, ih]

/-- The final value of each key after the field-level patch loop: the last
truthy-keyed entry for that key wins, and keys without such an entry keep
their prior value. -/
theorem patchFields_lookup (fs : List FormEntry) :
    ∀ (fields : List (String × JValue)) (k : String),
      jobjLookup (patchFields fields fs) k =
        (match lastTruthyVal k fs with
         | some s => some (parseValue s)
         | none => jobjLookup fields k) := by
  induction fs with
  | nil => intro fields k; rfl
  | cons f rest ih =>
    intro fields k
    rcases hk : f.key with _ | k2
    · simp only [patchFields, lastTruthyVal, hk, ih]
      cases hr : lastTruthyVal k rest <;> simp [hr]
    · by_cases h2 : k2 = ""
      · simp only [patchFields, lastTruthyVal, hk, h2, if_pos, ih]
        cases hr : lastTruthyVal k rest
        · by_cases hkk : k = ""
          · simp [hr, hkk]
          · simp [hr, hkk, Ne.symm hkk]
        · simp [hr]
      · simp only [patchFields, lastTruthyVal, hk, h2, ih]
        by_cases hkk : k2 = k
        · subst hkk
          cases hr : lastTruthyVal k2 rest <;>
            simp [hr, h2, jobjLookup_jobjSet_self]
        · cases hr : lastTruthyVal k rest <;>
            simp [hr, hkk, jobjLookup_jobjSet_other fields k2 k _ (fun hh => hkk hh.symm)]

/-- C2 (amended): for an object-like node whose path walks to an object
target inside a parsed document, applyEdits commits the document rebuilt at
that path with the patched fields; in the patched fields every key whose
last truthy-keyed (non-null, non-empty) form entry carries a value gets
that value's coercion, and every other key keeps exactly its previous
value, nested containers included.  (Entries with a null or empty-string
key are skipped by the code's truthiness test.) -/
theorem C2_object_patch (raw : String) (doc : JValue) (flds : List (String × JValue))
    (rows : List Row) (path : List Seg) (fs : List FormEntry)
    (hparse : jsonParse raw = some doc) (hsingle : isSingleUnnamed rows = false)
    (hwalk : walkPath doc path = some (.obj flds)) :
    applyEdits raw rows path fs =
      .committed (stringify (setAtPath doc path (.obj (patchFields flds fs)))) ∧
    (∀ k s, lastTruthyVal k fs = some s →
      jobjLookup (patchFields flds fs) k = some (parseValue s)) ∧
    (∀ k, lastTruthyVal k fs = none →
      jobjLookup (patchFields flds fs) k = jobjLookup flds k) := by
  have hraw := ne_empty_of_parses raw doc hparse
  refine ⟨?_, ?_, ?_⟩
  · simp [applyEdits, hraw, hparse, applyParsed, hsingle, hwalk, isContainer,
      patchTarget_obj]
  · intro k s hlast
    rw [patchFields_lookup fs flds k, hlast]
  · intro k hlast
    rw [patchFields_lookup fs flds k, hlast]

/-- C2 counterexample: the form entry with the empty-string key is non-null
but falsy, so the code skips it: patching the empty object at path x with
that entry leaves the document unchanged instead of assigning the key, and
the committed text is not the one the claim predicts. -/
theorem C2_counterexample :
    applyEdits "\x7b\"x\":\x7b\x7d\x7d" [⟨some "x", .obj [], "object"⟩]
      [.str "x"] [⟨some "", "1"⟩] = .committed "\x7b\n  \"x\": \x7b\x7d\n\x7d" ∧
    jsonParse "\x7b\n  \"x\": \x7b\x7d\n\x7d" = some (.obj [("x", .obj [])]) ∧
    ApplyResult.committed "\x7b\n  \"x\": \x7b\x7d\n\x7d" ≠
      .committed (stringify (.obj [("x", .obj [("", .num 1 0)])])) := by
  refine ⟨by decide, by decide, by decide⟩

/-- C2 witness: the claim's customer example run through the amended
theorem: name stays Bob, age becomes the number 31. -/
theorem C2_object_patch_witness :
    applyEdits "\x7b\"customer\":\x7b\"name\":\"Bob\",\"age\":30\x7d\x7d"
      [⟨some "name", .str "Bob", "string"⟩, ⟨some "age", .num 30 0, "number"⟩]
      [.str "customer"] [⟨some "age", "31"⟩] =
      .committed "\x7b\n  \"customer\": \x7b\n    \"name\": \"Bob\",\n    \"age\": 31\n  \x7d\n\x7d" ∧
    jobjLookup (patchFields [("name", .str "Bob"), ("age", .num 30 0)] [⟨some "age", "31"⟩])
      "age" = some (.num 31 0) ∧
    jobjLookup (patchFields [("name", .str "Bob"), ("age", .num 30 0)] [⟨some "age", "31"⟩])
      "name" = some (.str "Bob") := by
  have h := C2_object_patch "\x7b\"customer\":\x7b\"name\":\"Bob\",\"age\":30\x7d\x7d"
    (.obj [("customer", .obj [("name", .str "Bob"), ("age", .num 30 0)])])
    [("name", .str "Bob"), ("age", .num 30 0)]
    [⟨some "name", .str "Bob", "string"⟩, ⟨some "age", .num 30 0, "number"⟩]
    [.str "customer"] [⟨some "age", "31"⟩]
    (by decide) (by decide) (by decide)
  refine ⟨h.1.trans (by decide), ?_, ?_⟩
  · exact (h.2.1 "age" "31" (by decide)).trans (by decide)
  · exact (h.2.2 "name" (by decide)).trans (by decide)

/-- C10: the container check is truthiness plus an object typeof, so an
array target is accepted (the patch commits with the element writes of the
loop applied) while a null or primitive target makes the call a silent
no-op; a truthy-key entry whose key is a canonical index string writes that
element, and one with any other non-empty key leaves the serialized array
unchanged (in JS it becomes a non-index property on the array, which
JSON.stringify drops). -/
theorem C10_array_target (raw : String) (doc t : JValue) (es : List JValue)
    (rows : List Row) (path : List Seg) (fs : List FormEntry)
    (hparse : jsonParse raw = some doc) (hsingle : isSingleUnnamed rows = false) :
    (walkPath doc path = some (.arr es) →
      applyEdits raw rows path fs =
        .committed (stringify (setAtPath doc path (patchTarget (.arr es) fs)))) ∧
    (walkPath doc path = some t → isContainer t = false →
      applyEdits raw rows path fs = .silent) ∧
    (∀ k v n, canonIdx k = some n →
      patchTarget (.arr es) [⟨some k, v⟩] = .arr (jarrSet es n (parseValue v))) ∧
    (∀ k v, canonIdx k = none → k ≠ "" →
      patchTarget (.arr es) [⟨some k, v⟩] = .arr es) := by
  have hraw := ne_empty_of_parses raw doc hparse
  refine ⟨?_, ?_, ?_, ?_⟩
  · intro hwalk
    simp [applyEdits, hraw, hparse, applyParsed, hsingle, hwalk, isContainer]
  · intro hwalk hcont
    simp [applyEdits, hraw, hparse, applyParsed, hsingle, hwalk, hcont]
  · intro k v n hc
    have hne : ¬k = "" := by
      intro hh
      rw [hh] at hc
      have : canonIdx "" = none := by decide
      rw [this] at hc
      exact Option.noConfusion hc
    simp [patchTarget, setProp, hne, hc]
  · intro k v hc hne
    simp [patchTarget, setProp, hne, hc]

/-- The digit worker ignores its fuel whenever the fuel exceeds the
number. -/
theorem natDigitsAux_fuel : ∀ (n fuel : Nat), n < fuel → natDigitsAux fuel n = natDigits n := by
  intro n
  induction n using Nat.strong_induction_on with
  | _ n ih =>
    intro fuel hf
    cases fuel with
    | zero => omega
    | succ fuel =>
      rw [natDigits]
      simp only [natDigitsAux]
      by_cases h : n < 10
      · rw [if_pos h, if_pos h]
      · have hdiv := Nat.div_lt_self (show 0 < n by omega) (show 1 < 10 by omega)
        rw [if_neg h, if_neg h]
        rw [ih (n / 10) hdiv fuel (by omega), ih (n / 10) hdiv n (by omega)]

/-- The one-step unfolding of natDigits. -/
theorem natDigits_unfold (n : Nat) :
    natDigits n = if n < 10 then [digitChar n] else natDigits (n / 10) ++ [digitChar (n % 10)] := by
  rw [natDigits]
  simp only [natDigitsAux]
  by_cases h : n < 10
  · rw [if_pos h, if_pos h]
  · have hdiv := Nat.div_lt_self (show 0 < n by omega) (show 1 < 10 by omega)
    rw [if_neg h, if_neg h, natDigitsAux_fuel (n / 10) n (by omega)]

/-- The code of a digit character. -/
theorem digitChar_toNat (d : Nat) (h : d < 10) : (digitChar d).toNat = 48 + d := by
  interval_cases d <;> decide

/-- Digit characters pass the digit test. -/
theorem digitChar_isDigit (d : Nat) (h : d < 10) : isDigit (digitChar d) = true := by
  interval_cases d <;> decide

/-- The digit character of a nonzero digit is not the zero character. -/
theorem digitChar_ne_zero (d : Nat) (h1 : d < 10) (h2 : d ≠ 0) : digitChar d ≠ '0' := by
  interval_cases d
  · exact absurd rfl h2
  all_goals decide

/-- A number always has at least one digit character. -/
theorem natDigits_ne_nil (n : Nat) : natDigits n ≠ [] := by
  rw [natDigits_unfold]
  by_cases h : n < 10 <;> simp [h]

/-- Every character of a rendered number is a digit. -/
theorem natDigits_digits : ∀ (n : Nat), ∀ c ∈ natDigits n, isDigit c = true := by
  intro n
  induction n using Nat.strong_induction_on with
  | _ n ih =>
    rw [natDigits_unfold]
    by_cases h : n < 10
    · simp [h, digitChar_isDigit n h]
    · have hdiv := Nat.div_lt_self (show 0 < n by omega) (show 1 < 10 by omega)
      rw [if_neg h]
      intro c hc
      rw [List.mem_append] at hc
      rcases hc with hc | hc
      · exact ih (n / 10) hdiv c hc
      · simp at hc
        subst hc
        exact digitChar_isDigit _ (Nat.mod_lt _ (by omega))

/-- Folding the digit accumulator from an arbitrary start. -/
theorem digitsToNat_foldl (l : List Char) : ∀ acc : Nat,
    l.foldl (fun a c => a * 10 + (c.toNat - 48)) acc = acc * 10 ^ l.length + digitsToNat l := by
  induction l with
  | nil => intro acc; simp [digitsToNat]
  | cons c t ih =>
    intro acc
    simp only [List.foldl_cons, digitsToNat, List.length_cons]
    rw [ih (acc * 10 + (c.toNat - 48)), ih (0 * 10 + (c.toNat - 48))]
    ring

/-- Reading back the rendered digits recovers the number. -/
theorem digitsToNat_natDigits : ∀ (n : Nat), digitsToNat (natDigits n) = n := by
  intro n
  induction n using Nat.strong_induction_on with
  | _ n ih =>
    rw [natDigits_unfold]
    by_cases h : n < 10
    · simp [h, digitsToNat, digitChar_toNat n h]
    · have hdiv := Nat.div_lt_self (show 0 < n by omega) (show 1 < 10 by omega)
      rw [if_neg h]
      simp only [digitsToNat, List.foldl_append]
      rw [show (natDigits (n / 10)).foldl (fun a c => a * 10 + (c.toNat - 48)) 0 =
            digitsToNat (natDigits (n / 10)) from rfl,
        ih (n / 10) hdiv]
      simp only [List.foldl_cons, List.foldl_nil]
      rw [digitChar_toNat (n % 10) (Nat.mod_lt _ (by omega))]
      omega

/-- The leading digit of a positive number is not zero. -/
theorem natDigits_head_ne_zero : ∀ (n : Nat), 1 ≤ n → ∀ c t, natDigits n = c :: t → c ≠ '0' := by
  intro n
  induction n using Nat.strong_induction_on with
  | _ n ih =>
    intro hn c t heq
    rw [natDigits_unfold] at heq
    by_cases h : n < 10
    · rw [if_pos h] at heq
      injection heq with h1 h2
      subst h1
      exact digitChar_ne_zero n h (by omega)
    · rw [if_neg h] at heq
      have hdiv := Nat.div_lt_self (show 0 < n by omega) (show 1 < 10 by omega)
      obtain ⟨c0, t0, h0⟩ : ∃ c0 t0, natDigits (n / 10) = c0 :: t0 := by
        cases hnd : natDigits (n / 10) with
        | nil => exact absurd hnd (natDigits_ne_nil _)
        | cons a b => exact ⟨a, b, rfl⟩
      rw [h0] at heq
      injection heq with h1 h2
      subst h1
      exact ih (n / 10) hdiv (by omega) c0 t0 h0

/-- A rendered number never has a forbidden leading zero. -/
theorem natDigits_no_bad_leading (n : Nat) : ∀ d ds, natDigits n = d :: ds →
    ¬(d = '0' ∧ ds ≠ []) := by
  intro d ds heq hcontra
  obtain ⟨h0, hne⟩ := hcontra
  by_cases hn : n = 0
  · subst hn
    rw [natDigits_unfold] at heq
    simp at heq
    exact hne heq.2
  · exact natDigits_head_ne_zero n (by omega) d ds heq h0

/-- A number below a power of ten uses at most that many digits. -/
theorem natDigits_length_le : ∀ (k n : Nat), 1 ≤ k → n < 10 ^ k →
    (natDigits n).length ≤ k := by
  intro k
  induction k with
  | zero => intro n h; omega
  | succ k ihk =>
    intro n _ h
    by_cases h10 : n < 10
    · rw [natDigits_unfold, if_pos h10]
      simp
    · rw [natDigits_unfold, if_neg h10]
      have hk1 : 1 ≤ k := by
        rcases Nat.eq_zero_or_pos k with h0 | h1
        · subst h0
          simp at h
          omega
        · exact h1
      have hlt : n / 10 < 10 ^ k := by
        rw [Nat.div_lt_iff_lt_mul (by omega)]
        calc n < 10 ^ (k + 1) := h
        _ = 10 ^ k * 10 := by ring
      have := ihk (n / 10) hk1 hlt
      simp [List.length_append]
      omega

/-- Taking digits from a digit run followed by a non-digit remainder splits
exactly there. -/
theorem takeDigits_append : ∀ (ds : List Char), (∀ c ∈ ds, isDigit c = true) →
    ∀ (rest : List Char), (∀ c t, rest = c :: t → isDigit c = false) →
      takeDigits (ds ++ rest) = (ds, rest) := by
  intro ds
  induction ds with
  | nil =>
    intro _ rest hrest
    cases rest with
    | nil => rfl
    | cons c t => simp [takeDigits, hrest c t rfl]
  | cons c t ih =>
    intro hds rest hrest
    have hc : isDigit c = true := hds c (by simp)
    simp [takeDigits, hc, ih (fun c2 h2 => hds c2 (by simp [h2])) rest hrest]

/-- Zero padding preserves the digit property. -/
theorem padZeros_digits (l : List Char) (w : Nat) (hl : ∀ c ∈ l, isDigit c = true) :
    ∀ c ∈ padZeros l w, isDigit c = true := by
  intro c hc
  rw [padZeros, List.mem_append] at hc
  rcases hc with hc | hc
  · have := List.eq_of_mem_replicate hc
    subst this
    decide
  · exact hl c hc

/-- Zero padding reaches the requested width. -/
theorem padZeros_length (l : List Char) (w : Nat) (h : l.length ≤ w) :
    (padZeros l w).length = w := by
  simp [padZeros]
  omega

/-- Zero padding does not change the numeric value. -/
theorem digitsToNat_padZeros (l : List Char) (w : Nat) :
    digitsToNat (padZeros l w) = digitsToNat l := by
  have hz : ∀ k, (List.replicate k '0').foldl (fun a c => a * 10 + (c.toNat - 48)) 0 = 0 := by
    intro k
    induction k with
    | zero => rfl
    | succ k ihk =>
      rw [List.replicate_succ, List.foldl_cons]
      have hstep : (0 * 10 + ('0'.toNat - 48)) = 0 := by decide
      rw [hstep]
      exact ihk
  rw [padZeros]
  simp only [digitsToNat, List.foldl_append, hz]

/-- The conditions a boundary remainder puts on its head character. -/
theorem boundary_head (rest : List Char) (h : boundary rest = true) :
    ∀ c t, rest = c :: t → isDigit c = false ∧ c ≠ '.' ∧ c ≠ 'e' ∧ c ≠ 'E' := by
  intro c t heq
  subst heq
  simp [boundary] at h
  tauto

/-- Parsing an unsigned rendered integer recovers it, for any boundary
remainder. -/
theorem parseUnsigned_int (a : Nat) (rest : List Char) (hrest : boundary rest = true) :
    parseUnsigned (natDigits a ++ rest) = some (((a : Int), 0), rest) := by
  obtain ⟨d, ds, hnd⟩ : ∃ d ds, natDigits a = d :: ds := by
    cases h : natDigits a with
    | nil => exact absurd h (natDigits_ne_nil a)
    | cons x y => exact ⟨x, y, rfl⟩
  have htake : takeDigits (natDigits a ++ rest) = (natDigits a, rest) :=
    takeDigits_append (natDigits a) (natDigits_digits a) rest
      (fun c t h => (boundary_head rest hrest c t h).1)
  have hval : digitsToNat (natDigits a) = a := digitsToNat_natDigits a
  have hlead := natDigits_no_bad_leading a d ds hnd
  rw [hnd] at htake hval
  rw [hnd]
  simp only [parseUnsigned, htake]
  rw [if_neg hlead, hval]
  cases rest with
  | nil => rfl
  | cons c t =>
    have hb := boundary_head (c :: t) hrest c t rfl
    simp only [parseExp]
    rw [if_neg hb.2.1]
    rw [if_neg (by
      intro hor
      rcases hor with h1 | h1
      · exact hb.2.2.1 h1
      · exact hb.2.2.2 h1)]

/-- Parsing a rendered integer-dot-fraction decimal recovers mantissa and
scale, for any boundary remainder. -/
theorem parseUnsigned_frac (a e : Nat) (he : e ≠ 0) (rest : List Char)
    (hrest : boundary rest = true) :
    parseUnsigned (natDigits (a / 10 ^ e) ++
        '.' :: (padZeros (natDigits (a % 10 ^ e)) e ++ rest)) =
      some (((a : Int), e), rest) := by
  obtain ⟨d, ds, hnd⟩ : ∃ d ds, natDigits (a / 10 ^ e) = d :: ds := by
    cases h : natDigits (a / 10 ^ e) with
    | nil => exact absurd h (natDigits_ne_nil _)
    | cons x y => exact ⟨x, y, rfl⟩
  have htake : takeDigits (natDigits (a / 10 ^ e) ++
      '.' :: (padZeros (natDigits (a % 10 ^ e)) e ++ rest)) =
      (natDigits (a / 10 ^ e), '.' :: (padZeros (natDigits (a % 10 ^ e)) e ++ rest)) :=
    takeDigits_append _ (natDigits_digits _) _
      (by
        intro c t h
        injection h with h1 h2
        subst h1
        decide)
  have hlead := natDigits_no_bad_leading (a / 10 ^ e) d ds hnd
  have hfrac : takeDigits (padZeros (natDigits (a % 10 ^ e)) e ++ rest) =
      (padZeros (natDigits (a % 10 ^ e)) e, rest) :=
    takeDigits_append _ (padZeros_digits _ _ (natDigits_digits _)) rest
      (fun c t h => (boundary_head rest hrest c t h).1)
  obtain ⟨f, fs2, hq⟩ : ∃ f fs2, padZeros (natDigits (a % 10 ^ e)) e = f :: fs2 := by
    cases h : padZeros (natDigits (a % 10 ^ e)) e with
    | nil =>
      have := padZeros_length (natDigits (a % 10 ^ e)) e
        (natDigits_length_le e (a % 10 ^ e) (by omega)
          (Nat.mod_lt _ (by positivity)))
      rw [h] at this
      simp at this
      omega
    | cons x y => exact ⟨x, y, rfl⟩
  have hlen : (padZeros (natDigits (a % 10 ^ e)) e).length = e :=
    padZeros_length _ _ (natDigits_length_le e (a % 10 ^ e) (by omega)
      (Nat.mod_lt _ (by positivity)))
  have hfval : digitsToNat (padZeros (natDigits (a % 10 ^ e)) e) = a % 10 ^ e := by
    rw [digitsToNat_padZeros, digitsToNat_natDigits]
  rw [hnd] at htake
  rw [hq] at hlen hfval
  rw [hnd]
  simp only [parseUnsigned, htake]
  rw [if_neg hlead]
  simp only [if_true]
  rw [hq] at hfrac
  simp only [hq, hfrac]
  rw [hlen, hfval]
  rw [← hnd, digitsToNat_natDigits]
  have hmant : (((a / 10 ^ e) * 10 ^ e + a % 10 ^ e : Nat) : Int) = (a : Int) := by
    have h1 : (a / 10 ^ e) * 10 ^ e + a % 10 ^ e = a := by
      rw [Nat.mul_comm (a / 10 ^ e) (10 ^ e)]
      exact Nat.div_add_mod a (10 ^ e)
    exact_mod_cast congrArg (fun n : Nat => (n : Int)) h1
  rw [hmant]
  cases rest with
  | nil => rfl
  | cons c t =>
    have hb := boundary_head (c :: t) hrest c t rfl
    simp only [parseExp]
    rw [if_neg (by
      intro hor
      rcases hor with h1 | h1
      · exact hb.2.2.1 h1
      · exact hb.2.2.2 h1)]

/-- The number codec round-trip: parsing a rendered decimal recovers its
mantissa and scale, for any boundary remainder. -/
theorem parseNum_numChars (m : Int) (e : Nat) (rest : List Char)
    (hrest : boundary rest = true) :
    parseNum (numChars m e ++ rest) = some ((m, e), rest) := by
  have hdigit_ne : ∀ c : Char, isDigit c = true → ¬c = '-' := by
    intro c hc hcc
    subst hcc
    simp [isDigit] at hc
  by_cases he : e = 0
  · subst he
    by_cases hm : m < 0
    · have habs : numChars m 0 ++ rest = '-' :: (natDigits m.natAbs ++ rest) := by
        simp [numChars, intChars, hm]
      rw [habs]
      simp only [parseNum]
      simp only [if_true]
      rw [parseUnsigned_int m.natAbs rest hrest]
      have hcast : -((m.natAbs : Nat) : Int) = m := by omega
      simp only [Option.some.injEq, Prod.mk.injEq]
      exact ⟨⟨hcast, trivial⟩, trivial⟩
    · have habs : numChars m 0 ++ rest = natDigits m.natAbs ++ rest := by
        simp [numChars, intChars, hm]
      rw [habs]
      obtain ⟨d, ds, hnd⟩ : ∃ d ds, natDigits m.natAbs = d :: ds := by
        cases h : natDigits m.natAbs with
        | nil => exact absurd h (natDigits_ne_nil _)
        | cons x y => exact ⟨x, y, rfl⟩
      have hd : isDigit d = true := natDigits_digits m.natAbs d (by rw [hnd]; simp)
      rw [hnd]
      simp only [parseNum, List.cons_append]
      rw [if_neg (hdigit_ne d hd)]
      rw [← List.cons_append, ← hnd, parseUnsigned_int m.natAbs rest hrest]
      have hcast : ((m.natAbs : Nat) : Int) = m := by omega
      rw [hcast]
  · by_cases hm : m < 0
    · have habs : numChars m e ++ rest =
          '-' :: (natDigits (m.natAbs / 10 ^ e) ++
            '.' :: (padZeros (natDigits (m.natAbs % 10 ^ e)) e ++ rest)) := by
        simp [numChars, he, hm, List.append_assoc]
      rw [habs]
      simp only [parseNum]
      simp only [if_true]
      rw [parseUnsigned_frac m.natAbs e he rest hrest]
      have hcast : -((m.natAbs : Nat) : Int) = m := by omega
      simp only [Option.some.injEq, Prod.mk.injEq]
      exact ⟨⟨hcast, trivial⟩, trivial⟩
    · have habs : numChars m e ++ rest =
          natDigits (m.natAbs / 10 ^ e) ++
            '.' :: (padZeros (natDigits (m.natAbs % 10 ^ e)) e ++ rest) := by
        simp [numChars, he, hm, List.append_assoc]
      rw [habs]
      obtain ⟨d, ds, hnd⟩ : ∃ d ds, natDigits (m.natAbs / 10 ^ e) = d :: ds := by
        cases h : natDigits (m.natAbs / 10 ^ e) with
        | nil => exact absurd h (natDigits_ne_nil _)
        | cons x y => exact ⟨x, y, rfl⟩
      have hd : isDigit d = true := natDigits_digits _ d (by rw [hnd]; simp)
      rw [hnd]
      simp only [parseNum, List.cons_append]
      rw [if_neg (hdigit_ne d hd)]
      rw [← List.cons_append, ← hnd, parseUnsigned_frac m.natAbs e he rest hrest]
      have hcast : ((m.natAbs : Nat) : Int) = m := by omega
      rw [hcast]

/-- Reading back a rendered hexadecimal digit character. -/
theorem hexVal_hexDigitChar (d : Nat) (h : d < 16) : hexVal (hexDigitChar d) = some d := by
  interval_cases d <;> decide

/-- The string-body codec round-trip: parsing an escaped body followed by
the closing quote recovers the characters and the remainder. -/
theorem parseStrBody_strBody : ∀ (l rest : List Char),
    parseStrBody (strBody l ++ '"' :: rest) = some (l, rest) := by
  intro l
  induction l with
  | nil => intro rest; rfl
  | cons c t ih =>
    intro rest
    show parseStrBody ((escapeChar c ++ strBody t) ++ '"' :: rest) = some (c :: t, rest)
    rw [List.append_assoc]
    by_cases h1 : c = '"'
    · subst h1
      simp [escapeChar, parseStrBody, parseEsc, unescapeChar, ih rest]
    · by_cases h2 : c = '\\'
      · subst h2
        simp [escapeChar, parseStrBody, parseEsc, unescapeChar, ih rest]
      · by_cases h3 : c = '\x08'
        · subst h3
          simp [escapeChar, parseStrBody, parseEsc, unescapeChar, ih rest]
        · by_cases h4 : c = '\x09'
          · subst h4
            simp [escapeChar, parseStrBody, parseEsc, unescapeChar, ih rest]
          · by_cases h5 : c = '\n'
            · subst h5
              simp [escapeChar, parseStrBody, parseEsc, unescapeChar, ih rest]
            · by_cases h6 : c = '\x0c'
              · subst h6
                simp [escapeChar, parseStrBody, parseEsc, unescapeChar, ih rest]
              · by_cases h7 : c = '\x0d'
                · subst h7
                  simp [escapeChar, parseStrBody, parseEsc, unescapeChar, ih rest]
                · by_cases h8 : c.toNat < 32
                  · have hesc : escapeChar c =
                        ['\\', 'u', '0', '0', hexDigitChar (c.toNat / 16),
                          hexDigitChar (c.toNat % 16)] := by
                      simp [escapeChar, h1, h2, h3, h4, h5, h6, h7, h8]
                    rw [hesc]
                    have hhex : hex4 '0' '0' (hexDigitChar (c.toNat / 16))
                        (hexDigitChar (c.toNat % 16)) = some c.toNat := by
                      have hhi : c.toNat / 16 < 16 := by omega
                      have hlo : c.toNat % 16 < 16 := Nat.mod_lt _ (by omega)
                      simp [hex4, hexVal_hexDigitChar _ hhi, hexVal_hexDigitChar _ hlo]
                      have : hexVal '0' = some 0 := by decide
                      simp [this]
                      omega
                    simp [parseStrBody, parseEsc, parseHexEsc, hhex, ih rest, Char.ofNat_toNat]
                  · have hesc : escapeChar c = [c] := by
                      simp [escapeChar, h1, h2, h3, h4, h5, h6, h7, h8]
                    rw [hesc]
                    simp [parseStrBody, h1, h2, ih rest]
                    omega

/-- Skipping whitespace stops at a non-whitespace head. -/
theorem skipWs_cons_of_not (c : Char) (t : List Char) (h : isWs c = false) :
    skipWs (c :: t) = c :: t := by
  simp [skipWs, h]

/-- Skipping whitespace swallows a whitespace-only prefix. -/
theorem skipWs_append_ws : ∀ (pre : List Char), wsOnly pre = true →
    ∀ (x : List Char), skipWs (pre ++ x) = skipWs x := by
  intro pre
  induction pre with
  | nil => intro _ x; rfl
  | cons c t ih =>
    intro h x
    simp only [wsOnly, List.all_cons, Bool.and_eq_true] at h
    simp [skipWs, h.1]
    exact ih (by simp [wsOnly, h.2]) x

/-- Indentation runs are whitespace. -/
theorem wsOnly_spaces (n : Nat) : wsOnly (spaces n) = true := by
  simp only [wsOnly, spaces, List.all_eq_true]
  intro c hc
  have := List.eq_of_mem_replicate hc
  subst this
  decide

/-- A digit character is none of the structural characters the parser
dispatches on. -/
theorem isDigit_facts (c : Char) (h : isDigit c = true) :
    isWs c = false ∧ c ≠ ']' ∧ c ≠ '\x7d' ∧ c ≠ '-' ∧ c ≠ 'n' ∧ c ≠ 't' ∧
      c ≠ 'f' ∧ c ≠ '"' ∧ c ≠ '[' ∧ c ≠ '\x7b' := by
  simp [isDigit] at h
  refine ⟨?_, ?_, ?_, ?_, ?_, ?_, ?_, ?_, ?_, ?_⟩
  · simp only [isWs, Bool.or_eq_false_iff, beq_eq_false_iff_ne]
    and_intros <;> exact fun h2 => absurd (h2 ▸ h) (by decide)
  all_goals exact fun h2 => absurd (h2 ▸ h) (by decide)

/-- A rendered number starts with a sign or a digit. -/
theorem numChars_head (m : Int) (e : Nat) :
    ∃ c t, numChars m e = c :: t ∧ (c = '-' ∨ isDigit c = true) := by
  have hnum : ∀ (a : Nat), ∃ c t, natDigits a = c :: t ∧ isDigit c = true := by
    intro a
    cases h : natDigits a with
    | nil => exact absurd h (natDigits_ne_nil a)
    | cons x y => exact ⟨x, y, rfl, natDigits_digits a x (by rw [h]; simp)⟩
  by_cases he : e = 0
  · subst he
    by_cases hm : m < 0
    · obtain ⟨c, t, hc, hd⟩ := hnum m.natAbs
      exact ⟨'-', natDigits m.natAbs, by simp [numChars, intChars, hm], Or.inl rfl⟩
    · obtain ⟨c, t, hc, hd⟩ := hnum m.natAbs
      exact ⟨c, t, by simp [numChars, intChars, hm, hc], Or.inr hd⟩
  · by_cases hm : m < 0
    · refine ⟨'-', natDigits (m.natAbs / 10 ^ e) ++
          '.' :: padZeros (natDigits (m.natAbs % 10 ^ e)) e, ?_, Or.inl rfl⟩
      simp [numChars, he, hm]
    · obtain ⟨c, t, hc, hd⟩ := hnum (m.natAbs / 10 ^ e)
      exact ⟨c, t ++ '.' :: padZeros (natDigits (m.natAbs % 10 ^ e)) e,
        by simp [numChars, he, hm, hc], Or.inr hd⟩

/-- Every rendered value starts with a character that is not whitespace and
not a closing bracket or brace. -/
theorem printVal_head (ind : Nat) (v : JValue) :
    ∃ c t, printVal ind v = c :: t ∧ isWs c = false ∧ c ≠ ']' ∧ c ≠ '\x7d' := by
  cases v with
  | num m e =>
    obtain ⟨c, t, hc, hd⟩ := numChars_head m e
    have hfacts : isWs c = false ∧ c ≠ ']' ∧ c ≠ '\x7d' := by
      rcases hd with hd | hd
      · subst hd
        refine ⟨?_, ?_, ?_⟩ <;> decide
      · exact ⟨(isDigit_facts c hd).1, (isDigit_facts c hd).2.1, (isDigit_facts c hd).2.2.1⟩
    exact ⟨c, t, by simp [printVal, hc], hfacts.1, hfacts.2.1, hfacts.2.2⟩
  | arr l =>
    cases l with
    | nil => refine ⟨'[', _, rfl, ?_, ?_, ?_⟩ <;> decide
    | cons v0 t => refine ⟨'[', _, rfl, ?_, ?_, ?_⟩ <;> decide
  | obj l =>
    cases l with
    | nil => refine ⟨'\x7b', _, rfl, ?_, ?_, ?_⟩ <;> decide
    | cons f t =>
      obtain ⟨k, v0⟩ := f
      refine ⟨'\x7b', _, rfl, ?_, ?_, ?_⟩ <;> decide
  | null => refine ⟨'n', _, rfl, ?_, ?_, ?_⟩ <;> decide
  | bool b =>
    cases b with
    | true => refine ⟨'t', _, rfl, ?_, ?_, ?_⟩ <;> decide
    | false => refine ⟨'f', _, rfl, ?_, ?_, ?_⟩ <;> decide
  | str s => refine ⟨'"', _, rfl, ?_, ?_, ?_⟩ <;> decide

/-- Every rendered value is nonempty. -/
theorem printVal_length_pos (ind : Nat) (v : JValue) : 1 ≤ (printVal ind v).length := by
  obtain ⟨c, t, hc, _⟩ := printVal_head ind v
  rw [hc]
  simp

/-- Setting a fresh key appends it at the end. -/
theorem jobjSet_append : ∀ (acc : List (String × JValue)) (k : String) (v : JValue),
    hasKey acc k = false → jobjSet acc k v = acc ++ [(k, v)] := by
  intro acc
  induction acc with
  | nil => intro k v _; rfl
  | cons p t ih =>
    intro k v h
    obtain ⟨k0, v0⟩ := p
    simp only [hasKey, Bool.or_eq_false_iff] at h
    have h1 : ¬k0 = k := by
      intro hh
      rw [← decide_eq_true_iff (p := k0 = k)] at hh
      rw [hh] at h
      exact Bool.noConfusion h.1
    simp [jobjSet, h1, ih k v h.2]

/-- Key presence in an appended field list. -/
theorem hasKey_append (a b : List (String × JValue)) (k : String) :
    hasKey (a ++ b) k = (hasKey a k || hasKey b k) := by
  induction a with
  | nil => simp [hasKey]
  | cons p t ih =>
    obtain ⟨k0, v0⟩ := p
    simp [hasKey, ih, Bool.or_assoc]

/-- A key absent from a field list differs from every key in it. -/
theorem hasKey_false_iff (l : List (String × JValue)) (k : String) :
    hasKey l k = false ↔ ∀ p ∈ l, p.1 ≠ k := by
  induction l with
  | nil => simp [hasKey]
  | cons p t ih =>
    obtain ⟨k0, v0⟩ := p
    simp [hasKey, ih]

/-- Length of an indentation run. -/
theorem spaces_length (n : Nat) : (spaces n).length = n := by
  simp [spaces]

/-- Unfolding of the boundary test at a cons. -/
theorem boundary_cons (c : Char) (x : List Char) :
    boundary (c :: x) = !(isDigit c || c = '.' || c = 'e' || c = 'E') := rfl

/-- Unfolding of the whitespace-only test at a cons. -/
theorem wsOnly_cons (c : Char) (x : List Char) :
    wsOnly (c :: x) = (isWs c && wsOnly x) := by
  simp [wsOnly]

/-- A nonempty array body starts with its first element's rendering. -/
theorem printItems_shape (ind : Nat) (v : JValue) (t : List JValue) :
    ∃ tail, printItems ind (v :: t) = printVal ind v ++ tail ∧
      (t = [] → tail = []) := by
  cases t with
  | nil => exact ⟨[], by simp [printItems], fun _ => rfl⟩
  | cons v2 t2 =>
    exact ⟨',' :: '\n' :: (spaces ind ++ printItems ind (v2 :: t2)),
      by simp [printItems], by simp⟩

/-- Skipping whitespace steps over a whitespace head. -/
theorem skipWs_cons_ws (c : Char) (t : List Char) (h : isWs c = true) :
    skipWs (c :: t) = skipWs t := by
  simp [skipWs, h]

mutual
/-- The value codec round-trip: parsing a rendered value (after any
whitespace prefix) recovers the value and the boundary remainder, given
enough fuel and a well-formed value. -/
theorem rtVal : ∀ (fuel : Nat) (v : JValue) (ind : Nat) (pre rest : List Char),
    wfV v = true → wsOnly pre = true → boundary rest = true →
    (printVal ind v).length < fuel →
    parseVal fuel (pre ++ (printVal ind v ++ rest)) = some (v, rest)
  | 0, v, ind, pre, rest => by
    intro _ _ _ hlen
    omega
  | fuel + 1, v, ind, pre, rest => by
    intro hwf hpre hrest hlen
    cases v with
    | null =>
      have hskip : skipWs (pre ++ (printVal ind .null ++ rest)) =
          'n' :: ('u' :: 'l' :: 'l' :: rest) := by
        rw [skipWs_append_ws pre hpre,
          show printVal ind JValue.null ++ rest = 'n' :: ('u' :: 'l' :: 'l' :: rest) from by
            simp [printVal],
          skipWs_cons_of_not _ _ (by decide)]
      simp [parseVal, hskip, keyword]
    | bool b =>
      cases b with
      | true =>
        have hskip : skipWs (pre ++ (printVal ind (.bool true) ++ rest)) =
            't' :: ('r' :: 'u' :: 'e' :: rest) := by
          rw [skipWs_append_ws pre hpre,
            show printVal ind (JValue.bool true) ++ rest =
              't' :: ('r' :: 'u' :: 'e' :: rest) from by simp [printVal],
            skipWs_cons_of_not _ _ (by decide)]
        simp [parseVal, hskip, keyword]
      | false =>
        have hskip : skipWs (pre ++ (printVal ind (.bool false) ++ rest)) =
            'f' :: ('a' :: 'l' :: 's' :: 'e' :: rest) := by
          rw [skipWs_append_ws pre hpre,
            show printVal ind (JValue.bool false) ++ rest =
              'f' :: ('a' :: 'l' :: 's' :: 'e' :: rest) from by simp [printVal],
            skipWs_cons_of_not _ _ (by decide)]
        simp [parseVal, hskip, keyword]
    | num m e =>
      obtain ⟨c0, tl0, hpv, hd⟩ := numChars_head m e
      have hfacts : isWs c0 = false ∧ c0 ≠ 'n' ∧ c0 ≠ 't' ∧ c0 ≠ 'f' ∧ c0 ≠ '"' ∧
          c0 ≠ '[' ∧ c0 ≠ '\x7b' := by
        rcases hd with hd | hd
        · subst hd
          exact ⟨by decide, by decide, by decide, by decide, by decide, by decide, by decide⟩
        · obtain ⟨f1, _, _, _, f5, f6, f7, f8, f9, f10⟩ := isDigit_facts c0 hd
          exact ⟨f1, f5, f6, f7, f8, f9, f10⟩
      have hskip : skipWs (pre ++ (printVal ind (.num m e) ++ rest)) =
          c0 :: (tl0 ++ rest) := by
        rw [skipWs_append_ws pre hpre]
        show skipWs (numChars m e ++ rest) = c0 :: (tl0 ++ rest)
        rw [hpv, List.cons_append, skipWs_cons_of_not _ _ hfacts.1]
      simp only [parseVal, hskip]
      rw [if_neg hfacts.2.1, if_neg hfacts.2.2.1, if_neg hfacts.2.2.2.1,
        if_neg hfacts.2.2.2.2.1, if_neg hfacts.2.2.2.2.2.1, if_neg hfacts.2.2.2.2.2.2]
      rw [← List.cons_append, ← hpv, parseNum_numChars m e rest hrest]
    | str s =>
      have hskip : skipWs (pre ++ (printVal ind (.str s) ++ rest)) =
          '"' :: (strBody s.data ++ ('"' :: rest)) := by
        rw [skipWs_append_ws pre hpre,
          show printVal ind (JValue.str s) ++ rest =
            '"' :: (strBody s.data ++ ('"' :: rest)) from by simp [printVal, strChars],
          skipWs_cons_of_not _ _ (by decide)]
      simp [parseVal, hskip, parseStrBody_strBody s.data rest]
    | arr l =>
      cases l with
      | nil =>
        have hskip : skipWs (pre ++ (printVal ind (.arr []) ++ rest)) =
            '[' :: (']' :: rest) := by
          rw [skipWs_append_ws pre hpre,
            show printVal ind (JValue.arr []) ++ rest = '[' :: (']' :: rest) from by
              simp [printVal],
            skipWs_cons_of_not _ _ (by decide)]
        have hskip2 : skipWs (']' :: rest) = ']' :: rest :=
          skipWs_cons_of_not _ _ (by decide)
        simp [parseVal, hskip, hskip2]
      | cons v0 t =>
        have hwfl : wfArr (v0 :: t) = true := by simpa [wfV] using hwf
        obtain ⟨tail, htail, _⟩ := printItems_shape (ind + 2) v0 t
        obtain ⟨c0, tl0, hpv0, hws0, hne0, _⟩ := printVal_head (ind + 2) v0
        have hpi : printItems (ind + 2) (v0 :: t) = c0 :: (tl0 ++ tail) := by
          rw [htail, hpv0]
          simp
        have hinput : printVal ind (.arr (v0 :: t)) ++ rest =
            '[' :: ('\n' :: (spaces (ind + 2) ++ (printItems (ind + 2) (v0 :: t) ++
              ('\n' :: (spaces ind ++ (']' :: rest)))))) := by
          simp [printVal, List.append_assoc]
        have hskip : skipWs (pre ++ (printVal ind (.arr (v0 :: t)) ++ rest)) =
            '[' :: ('\n' :: (spaces (ind + 2) ++ (printItems (ind + 2) (v0 :: t) ++
              ('\n' :: (spaces ind ++ (']' :: rest)))))) := by
          rw [hinput, skipWs_append_ws pre hpre, skipWs_cons_of_not _ _ (by decide)]
        have hskip2 : skipWs ('\n' :: (spaces (ind + 2) ++ (printItems (ind + 2) (v0 :: t) ++
            ('\n' :: (spaces ind ++ (']' :: rest)))))) =
            c0 :: ((tl0 ++ tail) ++ ('\n' :: (spaces ind ++ (']' :: rest)))) := by
          rw [skipWs_cons_ws _ _ (by decide), skipWs_append_ws _ (wsOnly_spaces _), hpi,
            List.cons_append, skipWs_cons_of_not _ _ hws0]
        have hclose : boundary ('\n' :: (spaces ind ++ (']' :: rest))) = true := by
          rw [boundary_cons]
          decide
        have hskipclose : skipWs ('\n' :: (spaces ind ++ (']' :: rest))) = ']' :: rest := by
          rw [skipWs_cons_ws _ _ (by decide), skipWs_append_ws _ (wsOnly_spaces _),
            skipWs_cons_of_not _ _ (by decide)]
        have hfuel : (printItems (ind + 2) (v0 :: t)).length + 1 < fuel := by
          rw [show printVal ind (JValue.arr (v0 :: t)) =
              '[' :: '\n' :: (spaces (ind + 2) ++ (printItems (ind + 2) (v0 :: t) ++
                '\n' :: (spaces ind ++ [']']))) from by simp [printVal]] at hlen
          simp only [List.length_cons, List.length_append, List.length_nil,
            spaces_length] at hlen
          omega
        have hitems := rtItems fuel (v0 :: t) (ind + 2) []
          ('\n' :: (spaces ind ++ (']' :: rest))) rest (by simp) hwfl rfl hclose
          hskipclose hfuel
        rw [List.nil_append] at hitems
        simp only [parseVal, hskip]
        rw [if_neg (by decide), if_neg (by decide), if_neg (by decide), if_neg (by decide)]
        simp only [if_true]
        rw [hskip2]
        split
        · next r2 heq =>
          exfalso
          rw [List.cons.injEq] at heq
          exact hne0 heq.1
        · next =>
          rw [show c0 :: ((tl0 ++ tail) ++ ('\n' :: (spaces ind ++ (']' :: rest)))) =
              printItems (ind + 2) (v0 :: t) ++ ('\n' :: (spaces ind ++ (']' :: rest))) from by
            rw [hpi]; simp]
          rw [hitems]
    | obj l =>
      cases l with
      | nil =>
        have hskip : skipWs (pre ++ (printVal ind (.obj []) ++ rest)) =
            '\x7b' :: ('\x7d' :: rest) := by
          rw [skipWs_append_ws pre hpre,
            show printVal ind (JValue.obj []) ++ rest = '\x7b' :: ('\x7d' :: rest) from by
              simp [printVal],
            skipWs_cons_of_not _ _ (by decide)]
        have hskip2 : skipWs ('\x7d' :: rest) = '\x7d' :: rest :=
          skipWs_cons_of_not _ _ (by decide)
        simp [parseVal, hskip, hskip2]
      | cons f t =>
        obtain ⟨k, v0⟩ := f
        have hwfl : wfObj ((k, v0) :: t) = true := by simpa [wfV] using hwf
        have hinput : printVal ind (.obj ((k, v0) :: t)) ++ rest =
            '\x7b' :: ('\n' :: (spaces (ind + 2) ++ (printFields (ind + 2) ((k, v0) :: t) ++
              ('\n' :: (spaces ind ++ ('\x7d' :: rest)))))) := by
          simp [printVal, List.append_assoc]
        have hpf : ∃ tailf, printFields (ind + 2) ((k, v0) :: t) =
            '"' :: ((strBody k.data ++ ['"']) ++ tailf) := by
          cases t with
          | nil =>
            exact ⟨':' :: ' ' :: printVal (ind + 2) v0, by simp [printFields, strChars]⟩
          | cons f2 t2 =>
            obtain ⟨k2, v2⟩ := f2
            exact ⟨':' :: ' ' :: (printVal (ind + 2) v0 ++ ',' :: '\n' ::
              (spaces (ind + 2) ++ printFields (ind + 2) ((k2, v2) :: t2))),
              by simp [printFields, strChars]⟩
        obtain ⟨tailf, htailf⟩ := hpf
        have hskip : skipWs (pre ++ (printVal ind (.obj ((k, v0) :: t)) ++ rest)) =
            '\x7b' :: ('\n' :: (spaces (ind + 2) ++ (printFields (ind + 2) ((k, v0) :: t) ++
              ('\n' :: (spaces ind ++ ('\x7d' :: rest)))))) := by
          rw [hinput, skipWs_append_ws pre hpre, skipWs_cons_of_not _ _ (by decide)]
        have hskip2 : skipWs ('\n' :: (spaces (ind + 2) ++ (printFields (ind + 2) ((k, v0) :: t) ++
            ('\n' :: (spaces ind ++ ('\x7d' :: rest)))))) =
            '"' :: (((strBody k.data ++ ['"']) ++ tailf) ++
              ('\n' :: (spaces ind ++ ('\x7d' :: rest)))) := by
          rw [skipWs_cons_ws _ _ (by decide), skipWs_append_ws _ (wsOnly_spaces _), htailf,
            List.cons_append, skipWs_cons_of_not _ _ (by decide)]
        have hclose : boundary ('\n' :: (spaces ind ++ ('\x7d' :: rest))) = true := by
          rw [boundary_cons]
          decide
        have hskipclose : skipWs ('\n' :: (spaces ind ++ ('\x7d' :: rest))) = '\x7d' :: rest := by
          rw [skipWs_cons_ws _ _ (by decide), skipWs_append_ws _ (wsOnly_spaces _),
            skipWs_cons_of_not _ _ (by decide)]
        have hfuel : (printFields (ind + 2) ((k, v0) :: t)).length + 1 < fuel := by
          rw [show printVal ind (JValue.obj ((k, v0) :: t)) =
              '\x7b' :: '\n' :: (spaces (ind + 2) ++ (printFields (ind + 2) ((k, v0) :: t) ++
                '\n' :: (spaces ind ++ ['\x7d']))) from by simp [printVal]] at hlen
          simp only [List.length_cons, List.length_append, List.length_nil,
            spaces_length] at hlen
          omega
        have hfields := rtFields fuel ((k, v0) :: t) (ind + 2) []
          ('\n' :: (spaces ind ++ ('\x7d' :: rest))) rest [] (by simp) hwfl
          (by intro p _; simp [hasKey]) rfl hclose hskipclose hfuel
        rw [List.nil_append, List.nil_append] at hfields
        simp only [parseVal, hskip]
        rw [if_neg (by decide), if_neg (by decide), if_neg (by decide), if_neg (by decide),
          if_neg (by decide)]
        simp only [if_true]
        rw [hskip2]
        split
        · next r2 heq =>
          exfalso
          rw [List.cons.injEq] at heq
          exact absurd heq.1 (by decide)
        · next =>
          rw [show '"' :: (((strBody k.data ++ ['"']) ++ tailf) ++
              ('\n' :: (spaces ind ++ ('\x7d' :: rest)))) =
              printFields (ind + 2) ((k, v0) :: t) ++
                ('\n' :: (spaces ind ++ ('\x7d' :: rest))) from by
            rw [htailf]; simp]
          rw [hfields]

/-- The array-body codec round-trip: parsing a rendered nonempty element
list followed by a close that skips to a bracket recovers the elements. -/
theorem rtItems : ∀ (fuel : Nat) (l : List JValue) (ind : Nat) (pre close rest : List Char),
    l ≠ [] → wfArr l = true → wsOnly pre = true → boundary close = true →
    skipWs close = ']' :: rest → (printItems ind l).length + 1 < fuel →
    parseItems fuel (pre ++ (printItems ind l ++ close)) = some (l, rest)
  | 0, l, ind, pre, close, rest => by
    intro _ _ _ _ _ hlen
    omega
  | fuel + 1, l, ind, pre, close, rest => by
    intro hne hwf hpre hbnd hcl hlen
    cases l with
    | nil => exact absurd rfl hne
    | cons v t =>
      have hwfv : wfV v = true := by
        simp [wfArr, Bool.and_eq_true] at hwf
        exact hwf.1
      have hwft : wfArr t = true := by
        simp [wfArr, Bool.and_eq_true] at hwf
        exact hwf.2
      cases t with
      | nil =>
        have hone : printItems ind [v] = printVal ind v := by simp [printItems]
        have hval := rtVal fuel v ind pre close hwfv hpre hbnd (by rw [hone] at hlen; omega)
        simp [parseItems, hone, hval, hcl]
      | cons v2 t2 =>
        have htwo : printItems ind (v :: v2 :: t2) =
            printVal ind v ++ (',' :: '\n' :: (spaces ind ++ printItems ind (v2 :: t2))) := by
          simp [printItems]
        have hsep : boundary (',' :: ('\n' :: (spaces ind ++
            (printItems ind (v2 :: t2) ++ close)))) = true := by
          rw [boundary_cons]
          decide
        have hval := rtVal fuel v ind pre
          (',' :: ('\n' :: (spaces ind ++ (printItems ind (v2 :: t2) ++ close)))) hwfv hpre hsep
          (by
            rw [htwo] at hlen
            simp at hlen
            omega)
        have hrec := rtItems fuel (v2 :: t2) ind ('\n' :: spaces ind) close rest (by simp)
          hwft (by rw [wsOnly_cons, wsOnly_spaces]; decide) hbnd hcl
          (by
            rw [htwo] at hlen
            have hvpos := printVal_length_pos ind v
            simp [spaces_length] at hlen
            omega)
        have hin : pre ++ (printItems ind (v :: v2 :: t2) ++ close) =
            pre ++ (printVal ind v ++ (',' :: ('\n' :: (spaces ind ++
              (printItems ind (v2 :: t2) ++ close))))) := by
          rw [htwo]
          simp
        have hsk : skipWs (',' :: ('\n' :: (spaces ind ++
            (printItems ind (v2 :: t2) ++ close)))) =
            ',' :: ('\n' :: (spaces ind ++ (printItems ind (v2 :: t2) ++ close))) :=
          skipWs_cons_of_not _ _ (by decide)
        have hrec2 : parseItems fuel ('\n' :: (spaces ind ++
            (printItems ind (v2 :: t2) ++ close))) = some (v2 :: t2, rest) := by
          rw [show ('\n' :: (spaces ind ++ (printItems ind (v2 :: t2) ++ close))) =
              ('\n' :: spaces ind) ++ (printItems ind (v2 :: t2) ++ close) from by simp]
          exact hrec
        rw [hin]
        simp [parseItems, hval, hsk, hrec2]

/-- The object-body codec round-trip: parsing a rendered nonempty member
list into a key-fresh accumulator appends the members and stops at the
closing brace. -/
theorem rtFields : ∀ (fuel : Nat) (l : List (String × JValue)) (ind : Nat)
    (pre close rest : List Char) (acc : List (String × JValue)),
    l ≠ [] → wfObj l = true → (∀ p ∈ l, hasKey acc p.1 = false) →
    wsOnly pre = true → boundary close = true → skipWs close = '\x7d' :: rest →
    (printFields ind l).length + 1 < fuel →
    parseFields fuel acc (pre ++ (printFields ind l ++ close)) = some (acc ++ l, rest)
  | 0, l, ind, pre, close, rest, acc => by
    intro _ _ _ _ _ _ hlen
    omega
  | fuel + 1, l, ind, pre, close, rest, acc => by
    intro hne hwf hacc hpre hbnd hcl hlen
    cases l with
    | nil => exact absurd rfl hne
    | cons f t =>
      obtain ⟨k, v⟩ := f
      have hwfv : wfV v = true := by
        simp [wfObj, Bool.and_eq_true] at hwf
        exact hwf.1.2
      have hwft : wfObj t = true := by
        simp [wfObj, Bool.and_eq_true] at hwf
        exact hwf.2
      have hkfresh : hasKey t k = false := by
        simp [wfObj, Bool.and_eq_true] at hwf
        exact hwf.1.1
      have hsetk : jobjSet acc k v = acc ++ [(k, v)] :=
        jobjSet_append acc k v (hacc (k, v) (by simp))
      cases t with
      | nil =>
        have hone : printFields ind [(k, v)] =
            ('"' :: (strBody k.data ++ ['"'])) ++ (':' :: ' ' :: printVal ind v) := by
          simp [printFields, strChars]
        have hb : printFields ind [(k, v)] ++ close =
            '"' :: (strBody k.data ++ ('"' :: (':' :: (' ' ::
              (printVal ind v ++ close))))) := by
          rw [hone]
          simp
        have hval := rtVal fuel v ind [' '] close hwfv (by decide) hbnd
          (by
            rw [hone] at hlen
            simp at hlen
            omega)
        rw [List.singleton_append] at hval
        have hs1 : skipWs (pre ++ (printFields ind [(k, v)] ++ close)) =
            '"' :: (strBody k.data ++ ('"' :: (':' :: (' ' ::
              (printVal ind v ++ close))))) := by
          rw [skipWs_append_ws pre hpre, hb, skipWs_cons_of_not _ _ (by decide)]
        have hs2 := parseStrBody_strBody k.data (':' :: (' ' :: (printVal ind v ++ close)))
        have hs3 : skipWs (':' :: (' ' :: (printVal ind v ++ close))) =
            ':' :: (' ' :: (printVal ind v ++ close)) :=
          skipWs_cons_of_not _ _ (by decide)
        have hset2 : jobjSet acc (String.mk k.data) v = acc ++ [(k, v)] := hsetk
        simp [parseFields, hs1, hs2, hs3, hval, hcl, hset2]
      | cons f2 t2 =>
        obtain ⟨k2, v2⟩ := f2
        have htwo : printFields ind ((k, v) :: (k2, v2) :: t2) =
            ('"' :: (strBody k.data ++ ['"'])) ++ (':' :: ' ' :: (printVal ind v ++
              (',' :: '\n' :: (spaces ind ++ printFields ind ((k2, v2) :: t2))))) := by
          simp [printFields, strChars]
        have hsep : boundary (',' :: ('\n' :: (spaces ind ++
            (printFields ind ((k2, v2) :: t2) ++ close)))) = true := by
          rw [boundary_cons]
          decide
        have hval := rtVal fuel v ind [' ']
          (',' :: ('\n' :: (spaces ind ++ (printFields ind ((k2, v2) :: t2) ++ close))))
          hwfv (by decide) hsep
          (by
            rw [htwo] at hlen
            simp at hlen
            omega)
        rw [List.singleton_append] at hval
        have hacc2 : ∀ p ∈ (k2, v2) :: t2, hasKey (acc ++ [(k, v)]) p.1 = false := by
          intro p hp
          rw [hasKey_append]
          have h1 : hasKey acc p.1 = false := hacc p (by simp [hp])
          have h2 : hasKey [(k, v)] p.1 = false := by
            simp [hasKey]
            intro hkp
            rw [hasKey_false_iff] at hkfresh
            exact absurd hkp.symm (hkfresh p hp)
          rw [h1, h2]
          rfl
        have hrec := rtFields fuel ((k2, v2) :: t2) ind ('\n' :: spaces ind) close rest
          (acc ++ [(k, v)]) (by simp) hwft hacc2
          (by rw [wsOnly_cons, wsOnly_spaces]; decide) hbnd hcl
          (by
            rw [htwo] at hlen
            have hvpos := printVal_length_pos ind v
            simp [spaces_length] at hlen
            omega)
        have hb : printFields ind ((k, v) :: (k2, v2) :: t2) ++ close =
            '"' :: (strBody k.data ++ ('"' :: (':' :: (' ' :: (printVal ind v ++
              (',' :: ('\n' :: (spaces ind ++
                (printFields ind ((k2, v2) :: t2) ++ close))))))))) := by
          rw [htwo]
          simp
        have hs1 : skipWs (pre ++ (printFields ind ((k, v) :: (k2, v2) :: t2) ++ close)) =
            '"' :: (strBody k.data ++ ('"' :: (':' :: (' ' :: (printVal ind v ++
              (',' :: ('\n' :: (spaces ind ++
                (printFields ind ((k2, v2) :: t2) ++ close))))))))) := by
          rw [skipWs_append_ws pre hpre, hb, skipWs_cons_of_not _ _ (by decide)]
        have hs2 := parseStrBody_strBody k.data
          (':' :: (' ' :: (printVal ind v ++ (',' :: ('\n' :: (spaces ind ++
            (printFields ind ((k2, v2) :: t2) ++ close)))))))
        have hs3 : skipWs (':' :: (' ' :: (printVal ind v ++ (',' :: ('\n' :: (spaces ind ++
            (printFields ind ((k2, v2) :: t2) ++ close))))))) =
            ':' :: (' ' :: (printVal ind v ++ (',' :: ('\n' :: (spaces ind ++
              (printFields ind ((k2, v2) :: t2) ++ close)))))) :=
          skipWs_cons_of_not _ _ (by decide)
        have hs4 : skipWs (',' :: ('\n' :: (spaces ind ++
            (printFields ind ((k2, v2) :: t2) ++ close)))) =
            ',' :: ('\n' :: (spaces ind ++ (printFields ind ((k2, v2) :: t2) ++ close))) :=
          skipWs_cons_of_not _ _ (by decide)
        have hrec2 : parseFields fuel (acc ++ [(k, v)]) ('\n' :: (spaces ind ++
            (printFields ind ((k2, v2) :: t2) ++ close))) =
            some ((acc ++ [(k, v)]) ++ ((k2, v2) :: t2), rest) := by
          rw [show ('\n' :: (spaces ind ++ (printFields ind ((k2, v2) :: t2) ++ close))) =
              ('\n' :: spaces ind) ++ (printFields ind ((k2, v2) :: t2) ++ close) from by simp]
          exact hrec
        have hset2 : jobjSet acc (String.mk k.data) v = acc ++ [(k, v)] := hsetk
        simp [parseFields, hs1, hs2, hs3, hval, hs4, hrec2, hset2]
end

/-- The document codec round-trip: JSON.parse recovers any well-formed
value from its JSON.stringify rendering. -/
theorem jsonParse_stringify (v : JValue) (hwf : wfV v = true) :
    jsonParse (stringify v) = some v := by
  have h := rtVal (2 * (printVal 0 v).length + 2) v 0 [] [] hwf rfl (by decide) (by omega)
  rw [List.nil_append, List.append_nil] at h
  have hdata : (stringify v).data = printVal 0 v := rfl
  simp [jsonParse, hdata, h, skipWs]

/-- An element list is well-formed exactly when every element is. -/
theorem wfArr_iff (l : List JValue) : wfArr l = true ↔ ∀ x ∈ l, wfV x = true := by
  induction l with
  | nil => simp [wfArr]
  | cons v t ih => simp [wfArr, Bool.and_eq_true, ih]

/-- Key presence after a property write: the old keys plus the written one. -/
theorem hasKey_jobjSet (f : List (String × JValue)) (k k' : String) (v : JValue) :
    hasKey (jobjSet f k v) k' = true ↔ (hasKey f k' = true ∨ k = k') := by
  induction f with
  | nil => simp [jobjSet, hasKey, eq_comm]
  | cons p t ih =>
    obtain ⟨k0, v0⟩ := p
    by_cases h : k0 = k
    · subst h
      simp [jobjSet, hasKey]
      tauto
    · simp [jobjSet, h, hasKey, ih]
      tauto

/-- A property write preserves key distinctness. -/
theorem wfObj_jobjSet (f : List (String × JValue)) (k : String) (v : JValue)
    (hwf : wfObj f = true) (hv : wfV v = true) : wfObj (jobjSet f k v) = true := by
  induction f with
  | nil => simp [jobjSet, wfObj, hasKey, hv]
  | cons p t ih =>
    obtain ⟨k0, v0⟩ := p
    simp only [wfObj, Bool.and_eq_true, Bool.not_eq_true'] at hwf
    by_cases h : k0 = k
    · subst h
      simp only [jobjSet, if_pos rfl, wfObj, Bool.and_eq_true, Bool.not_eq_true']
      exact ⟨⟨hwf.1.1, hv⟩, hwf.2⟩
    · simp only [jobjSet, if_neg h, wfObj, Bool.and_eq_true, Bool.not_eq_true']
      refine ⟨⟨?_, hwf.1.2⟩, ih hwf.2⟩
      rw [Bool.eq_false_iff]
      intro hc
      rcases (hasKey_jobjSet t k k0 v).1 hc with hc2 | hc2
      · rw [hwf.1.1] at hc2
        exact Bool.noConfusion hc2
      · exact h hc2.symm

/-- An element write preserves element well-formedness. -/
theorem wfArr_jarrSet (l : List JValue) (n : Nat) (v : JValue)
    (hwf : wfArr l = true) (hv : wfV v = true) : wfArr (jarrSet l n v) = true := by
  rw [wfArr_iff] at hwf ⊢
  intro x hx
  unfold jarrSet at hx
  split at hx
  · rcases List.mem_or_eq_of_mem_set hx with h | h
    · exact hwf x h
    · subst h
      exact hv
  · simp only [List.append_assoc, List.mem_append, List.mem_singleton,
      List.mem_replicate] at hx
    rcases hx with h | h | h
    · exact hwf x h
    · rw [h.2]
      rfl
    · subst h
      exact hv

/-- The string-keyed container write preserves well-formedness. -/
theorem wfV_setProp (t : JValue) (k : String) (nv : JValue)
    (hwf : wfV t = true) (hv : wfV nv = true) : wfV (setProp t k nv) = true := by
  cases t with
  | obj f => simpa [setProp, wfV] using wfObj_jobjSet f k nv (by simpa [wfV] using hwf) hv
  | arr l =>
    cases hc : canonIdx k with
    | none => simpa [setProp, hc] using hwf
    | some n =>
      simpa [setProp, hc, wfV] using wfArr_jarrSet l n nv (by simpa [wfV] using hwf) hv
  | null => simpa [setProp] using hwf
  | bool b => simpa [setProp] using hwf
  | num m e => simpa [setProp] using hwf
  | str s => simpa [setProp] using hwf

/-- A property read from a well-formed object yields a well-formed value. -/
theorem wfV_jobjLookup : ∀ (f : List (String × JValue)) (k : String) (c : JValue),
    wfObj f = true → jobjLookup f k = some c → wfV c = true := by
  intro f
  induction f with
  | nil =>
    intro k c _ h
    simp [jobjLookup] at h
  | cons p t ih =>
    intro k c hwf h
    obtain ⟨k0, v0⟩ := p
    simp only [wfObj, Bool.and_eq_true, Bool.not_eq_true'] at hwf
    by_cases hk : k0 = k
    · simp only [jobjLookup, if_pos hk, Option.some.injEq] at h
      rw [← h]
      exact hwf.1.2
    · simp only [jobjLookup, if_neg hk] at h
      exact ih k c hwf.2 h

/-- One optional-chained read from a well-formed value yields a well-formed
value. -/
theorem wfV_jindex (v : JValue) (s : Seg) (c : JValue)
    (hwf : wfV v = true) (h : jindex v s = some c) : wfV c = true := by
  cases v with
  | obj f => exact wfV_jobjLookup f (segKey s) c (by simpa [wfV] using hwf) h
  | arr l =>
    have harr : wfArr l = true := by simpa [wfV] using hwf
    cases s with
    | idx n =>
      simp only [jindex] at h
      exact (wfArr_iff l).1 harr c (List.get?_mem h)
    | str k =>
      simp only [jindex] at h
      cases hc : canonIdx k with
      | none => rw [hc] at h; exact Option.noConfusion h
      | some n =>
        rw [hc] at h
        exact (wfArr_iff l).1 harr c (List.get?_mem h)
  | str st =>
    cases s with
    | idx n =>
      simp only [jindex, Option.map_eq_some'] at h
      obtain ⟨ch, _, hc⟩ := h
      rw [← hc]
      rfl
    | str k =>
      simp only [jindex] at h
      cases hc : canonIdx k with
      | none => rw [hc] at h; exact Option.noConfusion h
      | some n =>
        rw [hc] at h
        simp only [Option.map_eq_some'] at h
        obtain ⟨ch, _, hc2⟩ := h
        rw [← hc2]
        rfl
  | null => simp [jindex] at h
  | bool b => simp [jindex] at h
  | num m e => simp [jindex] at h

/-- The optional-chain walk from a well-formed value yields a well-formed
value. -/
theorem wfV_walkPath : ∀ (p : List Seg) (v t : JValue),
    wfV v = true → walkPath v p = some t → wfV t = true := by
  intro p
  induction p with
  | nil =>
    intro v t hwf h
    simp only [walkPath, Option.some.injEq] at h
    rw [← h]
    exact hwf
  | cons s rest ih =>
    intro v t hwf h
    simp only [walkPath] at h
    cases hj : jindex v s with
    | none => rw [hj] at h; exact Option.noConfusion h
    | some c =>
      rw [hj] at h
      exact ih c t (wfV_jindex v s c hwf hj) h

/-- Rebuilding a container with a well-formed child preserves
well-formedness. -/
theorem wfV_jreplace (v : JValue) (s : Seg) (c : JValue)
    (hwf : wfV v = true) (hc : wfV c = true) : wfV (jreplace v s c) = true := by
  cases v with
  | obj f => simpa [jreplace, wfV] using wfObj_jobjSet f (segKey s) c (by simpa [wfV] using hwf) hc
  | arr l =>
    have harr : wfArr l = true := by simpa [wfV] using hwf
    cases s with
    | idx n => simpa [jreplace, wfV] using wfArr_jarrSet l n c harr hc
    | str k =>
      cases hcan : canonIdx k with
      | none => simpa [jreplace, hcan, wfV] using harr
      | some n => simpa [jreplace, hcan, wfV] using wfArr_jarrSet l n c harr hc
  | null => simpa [jreplace] using hwf
  | bool b => simpa [jreplace] using hwf
  | num m e => simpa [jreplace] using hwf
  | str st => simpa [jreplace] using hwf

/-- The functional path update preserves well-formedness. -/
theorem wfV_setAtPath : ∀ (p : List Seg) (doc nv : JValue),
    wfV doc = true → wfV nv = true → wfV (setAtPath doc p nv) = true := by
  intro p
  induction p with
  | nil =>
    intro doc nv _ hnv
    exact hnv
  | cons s rest ih =>
    intro doc nv hwf hnv
    simp only [setAtPath]
    cases hj : jindex doc s with
    | none => exact hwf
    | some child =>
      exact wfV_jreplace doc s _ hwf (ih child nv (wfV_jindex doc s child hwf hj) hnv)

mutual
/-- Every value the parser produces is well-formed: a JS object cannot hold
a duplicate key, and the accumulator write collapses duplicates. -/
theorem wfParseVal : ∀ (fuel : Nat) (cs : List Char) (v : JValue) (r : List Char),
    parseVal fuel cs = some (v, r) → wfV v = true
  | 0, cs, v, r => by
    intro h
    simp [parseVal] at h
  | fuel + 1, cs, v, r => by
    intro h
    cases hsk : skipWs cs with
    | nil => simp [parseVal, hsk] at h
    | cons c rest =>
      simp only [parseVal, hsk] at h
      split_ifs at h
      · split at h
        · simp only [Option.some.injEq, Prod.mk.injEq] at h
          rw [← h.1]
          rfl
        · exact Option.noConfusion h
      · split at h
        · simp only [Option.some.injEq, Prod.mk.injEq] at h
          rw [← h.1]
          rfl
        · exact Option.noConfusion h
      · split at h
        · simp only [Option.some.injEq, Prod.mk.injEq] at h
          rw [← h.1]
          rfl
        · exact Option.noConfusion h
      · split at h
        · simp only [Option.some.injEq, Prod.mk.injEq] at h
          rw [← h.1]
          rfl
        · exact Option.noConfusion h
      · split at h
        · simp only [Option.some.injEq, Prod.mk.injEq] at h
          rw [← h.1]
          rfl
        · split at h
          · rename_i l r2 heq
            simp only [Option.some.injEq, Prod.mk.injEq] at h
            rw [← h.1]
            simpa [wfV] using wfParseItems fuel _ l r2 heq
          · exact Option.noConfusion h
      · split at h
        · simp only [Option.some.injEq, Prod.mk.injEq] at h
          rw [← h.1]
          rfl
        · split at h
          · rename_i m r2 heq
            simp only [Option.some.injEq, Prod.mk.injEq] at h
            rw [← h.1]
            simpa [wfV] using wfParseFields fuel [] _ m r2 rfl heq
          · exact Option.noConfusion h
      · split at h
        all_goals
          first
            | exact Option.noConfusion h
            | (simp only [Option.some.injEq, Prod.mk.injEq] at h
               rw [← h.1]
               rfl)

/-- Every element list the parser produces is elementwise well-formed. -/
theorem wfParseItems : ∀ (fuel : Nat) (cs : List Char) (l : List JValue) (r : List Char),
    parseItems fuel cs = some (l, r) → wfArr l = true
  | 0, cs, l, r => by
    intro h
    simp [parseItems] at h
  | fuel + 1, cs, l, r => by
    intro h
    simp only [parseItems] at h
    split at h
    · exact Option.noConfusion h
    · rename_i v r0 heqv
      split at h
      · rename_i r2 heq2
        split at h
        · rename_i l2 r3 heq3
          simp only [Option.some.injEq, Prod.mk.injEq] at h
          rw [← h.1]
          show wfArr (v :: l2) = true
          rw [show wfArr (v :: l2) = (wfV v && wfArr l2) from rfl,
            wfParseVal fuel cs v r0 heqv, wfParseItems fuel r2 l2 r3 heq3]
          rfl
        · exact Option.noConfusion h
      · simp only [Option.some.injEq, Prod.mk.injEq] at h
        rw [← h.1]
        show wfArr [v] = true
        rw [show wfArr [v] = (wfV v && wfArr []) from rfl, wfParseVal fuel cs v r0 heqv]
        rfl
      · exact Option.noConfusion h

/-- Every member list the parser produces from a well-formed accumulator is
well-formed. -/
theorem wfParseFields : ∀ (fuel : Nat) (acc : List (String × JValue)) (cs : List Char)
    (m : List (String × JValue)) (r : List Char),
    wfObj acc = true → parseFields fuel acc cs = some (m, r) → wfObj m = true
  | 0, acc, cs, m, r => by
    intro _ h
    simp [parseFields] at h
  | fuel + 1, acc, cs, m, r => by
    intro hacc h
    simp only [parseFields] at h
    split at h
    · rename_i r0 hq0
      split at h
      · exact Option.noConfusion h
      · rename_i kl r1 heqs
        split at h
        · rename_i r2 hq2
          split at h
          · exact Option.noConfusion h
          · rename_i v r3 heqv
            split at h
            · rename_i r4 hq4
              exact wfParseFields fuel _ r4 m r
                (wfObj_jobjSet acc (String.mk kl) v hacc (wfParseVal fuel r2 v r3 heqv)) h
            · simp only [Option.some.injEq, Prod.mk.injEq] at h
              rw [← h.1]
              exact wfObj_jobjSet acc (String.mk kl) v hacc (wfParseVal fuel r2 v r3 heqv)
            · exact Option.noConfusion h
        · exact Option.noConfusion h
    · exact Option.noConfusion h
end

/-- Every value JSON.parse produces is well-formed. -/
theorem wfV_jsonParse (s : String) (v : JValue) (h : jsonParse s = some v) :
    wfV v = true := by
  unfold jsonParse at h
  split at h
  · rename_i v0 r heq
    split at h
    · simp only [Option.some.injEq] at h
      rw [← h]
      exact wfParseVal _ _ v0 r heq
    · exact Option.noConfusion h
  · exact Option.noConfusion h

/-- Every value the coercer produces is well-formed. -/
theorem wfV_parseValue (val : String) : wfV (parseValue val) = true := by
  unfold parseValue
  cases h : jsonParse val with
  | none => rfl
  | some v => exact wfV_jsonParse val v h

/-- The patch loop preserves well-formedness of the target. -/
theorem wfV_patchTarget : ∀ (fs : List FormEntry) (t : JValue),
    wfV t = true → wfV (patchTarget t fs) = true := by
  intro fs
  induction fs with
  | nil =>
    intro t hwf
    exact hwf
  | cons f rest ih =>
    intro t hwf
    show wfV (patchTarget _ rest) = true
    apply ih
    cases hk : f.key with
    | none => exact hwf
    | some k =>
      by_cases he : k = ""
      · simpa [he] using hwf
      · simpa [he] using wfV_setProp t k (parseValue f.value) hwf (wfV_parseValue f.value)

/-- The strict-mode final assignment preserves well-formedness when it
succeeds. -/
theorem wfV_assignSeg (parent : JValue) (s : Seg) (nv d : JValue)
    (hwf : wfV parent = true) (hnv : wfV nv = true)
    (h : assignSeg parent s nv = .ok d) : wfV d = true := by
  cases parent with
  | obj f =>
    simp only [assignSeg, AssignOut.ok.injEq] at h
    rw [← h]
    simpa [wfV] using wfObj_jobjSet f (segKey s) nv (by simpa [wfV] using hwf) hnv
  | arr l =>
    have harr : wfArr l = true := by simpa [wfV] using hwf
    cases s with
    | idx n =>
      simp only [assignSeg, AssignOut.ok.injEq] at h
      rw [← h]
      simpa [wfV] using wfArr_jarrSet l n nv harr hnv
    | str k =>
      simp only [assignSeg] at h
      cases hc : canonIdx k with
      | none =>
        rw [hc] at h
        simp only [AssignOut.ok.injEq] at h
        rw [← h]
        simpa [wfV] using harr
      | some n =>
        rw [hc] at h
        simp only [AssignOut.ok.injEq] at h
        rw [← h]
        simpa [wfV] using wfArr_jarrSet l n nv harr hnv
  | null => simp [assignSeg] at h
  | bool b => simp [assignSeg] at h
  | num m e => simp [assignSeg] at h
  | str st => simp [assignSeg] at h

/-- The parent-path walk and final assignment preserve well-formedness when
they succeed. -/
theorem wfV_assignAtPath : ∀ (ps : List Seg) (doc : JValue) (last : Seg) (nv d : JValue),
    wfV doc = true → wfV nv = true → assignAtPath doc ps last nv = .ok d →
    wfV d = true := by
  intro ps
  induction ps with
  | nil =>
    intro doc last nv d hwf hnv h
    simp only [assignAtPath] at h
    split at h
    · exact MutOut.noConfusion h
    · rename_i v heq
      simp only [MutOut.ok.injEq] at h
      rw [← h]
      exact wfV_assignSeg doc last nv v hwf hnv heq
  | cons s rest ih =>
    intro doc last nv d hwf hnv h
    simp only [assignAtPath] at h
    split at h
    · exact MutOut.noConfusion h
    · rename_i child heqc
      split at h
      · exact MutOut.noConfusion h
      · exact MutOut.noConfusion h
      · rename_i c2 heq2
        simp only [MutOut.ok.injEq] at h
        rw [← h]
        exact wfV_jreplace doc s c2 hwf
          (ih child last nv c2 (wfV_jindex doc s child hwf heqc) hnv heq2)

/-- C4: the document is valid JSON before and after a successful patch
cycle, and a failed cycle leaves the authoritative text byte-identical —
the patched value is built fully on the parsed working copy, every commit
writes one wholesale re-serialization of it, and the non-committing
outcomes never touch the text. -/
theorem C4_validity_atomicity (raw : String) (rows : List Row) (path : List Seg)
    (formState : List FormEntry) :
    (∀ t, applyEdits raw rows path formState = .committed t →
        (jsonParse raw).isSome ∧ (jsonParse t).isSome) ∧
    ((applyEdits raw rows path formState = .silent ∨
        applyEdits raw rows path formState = .alertError) →
      resultingDoc raw (applyEdits raw rows path formState) = raw) := by
  constructor
  · intro t h
    unfold applyEdits at h
    split_ifs at h
    cases hp : jsonParse raw with
    | none =>
      rw [hp] at h
      exact ApplyResult.noConfusion h
    | some parsed =>
      rw [hp] at h
      refine ⟨rfl, ?_⟩
      have hwf : wfV parsed = true := wfV_jsonParse raw parsed hp
      simp only [applyParsed] at h
      split_ifs at h
      · cases path with
        | nil =>
          simp only [ApplyResult.committed.injEq] at h
          rw [← h, jsonParse_stringify _ (wfV_parseValue _)]
          rfl
        | cons s0 ps =>
          cases hlast : (s0 :: ps).getLast? with
          | none =>
            simp only [hlast] at h
            exact ApplyResult.noConfusion h
          | some last =>
            cases heq : assignAtPath parsed (s0 :: ps).dropLast last
                (parseValue (headValue formState)) with
            | skip =>
              simp only [hlast, heq] at h
              exact ApplyResult.noConfusion h
            | err =>
              simp only [hlast, heq] at h
              exact ApplyResult.noConfusion h
            | ok doc2 =>
              simp only [hlast, heq, ApplyResult.committed.injEq] at h
              rw [← h, jsonParse_stringify _
                (wfV_assignAtPath _ parsed last _ doc2 hwf (wfV_parseValue _) heq)]
              rfl
      · cases heqw : walkPath parsed path with
        | none =>
          simp only [heqw] at h
          exact ApplyResult.noConfusion h
        | some t0 =>
          simp only [heqw] at h
          by_cases hcont : isContainer t0 = true
          · rw [if_pos hcont] at h
            simp only [ApplyResult.committed.injEq] at h
            rw [← h, jsonParse_stringify _ (wfV_setAtPath path parsed _ hwf
              (wfV_patchTarget formState t0 (wfV_walkPath path parsed t0 hwf heqw)))]
            rfl
          · rw [if_neg hcont] at h
            exact ApplyResult.noConfusion h
  · intro hor
    rcases hor with h | h <;> rw [h] <;> rfl

/-- C4 witness: the document 0-element array commits to the replacement 42
and both texts parse; the empty text is a silent non-commit that leaves the
text unchanged. -/
theorem C4_validity_atomicity_witness :
    ((jsonParse "[0]").isSome ∧ (jsonParse "42").isSome) ∧
      resultingDoc "" (applyEdits "" [] [] []) = "" :=
  ⟨(C4_validity_atomicity "[0]" [⟨none, JValue.num 0 0, "number"⟩] [] [⟨none, "42"⟩]).1
      "42" (by decide),
    (C4_validity_atomicity "" [] [] []).2 (Or.inl (by decide))⟩

/-- Writing back the value a key already holds at its first occurrence is
the identity. -/
theorem jobjSet_lookup_self : ∀ (f : List (String × JValue)) (k : String) (v : JValue),
    jobjLookup f k = some v → jobjSet f k v = f := by
  intro f
  induction f with
  | nil =>
    intro k v h
    simp [jobjLookup] at h
  | cons p t ih =>
    intro k v h
    obtain ⟨k0, v0⟩ := p
    by_cases hk : k0 = k
    · simp only [jobjLookup, if_pos hk, Option.some.injEq] at h
      simp [jobjSet, hk, h]
    · simp only [jobjLookup, if_neg hk] at h
      simp [jobjSet, hk, ih k v h]

/-- Setting a list element to the value it already holds is the identity. -/
theorem set_get_self : ∀ (l : List JValue) (n : Nat) (v : JValue),
    l.get? n = some v → l.set n v = l := by
  intro l
  induction l with
  | nil =>
    intro n v h
    simp at h
  | cons x t ih =>
    intro n v h
    cases n with
    | zero =>
      rw [List.get?_cons_zero, Option.some.injEq] at h
      rw [List.set_cons_zero, h]
    | succ m =>
      rw [List.get?_cons_succ] at h
      rw [List.set_cons_succ, ih m v h]

/-- The array write at a covered index with the value it already holds is
the identity. -/
theorem jarrSet_self (l : List JValue) (n : Nat) (v : JValue)
    (h : l.get? n = some v) : jarrSet l n v = l := by
  have hlt : n < l.length := by
    by_contra hge
    rw [List.get?_eq_none.2 (Nat.le_of_not_lt hge)] at h
    exact Option.noConfusion h
  simp only [jarrSet, if_pos hlt]
  exact set_get_self l n v h

/-- The container-only step agrees with the optional-chained step. -/
theorem jindexC_jindex (v : JValue) (s : Seg) (c : JValue)
    (h : jindexC v s = some c) : jindex v s = some c := by
  cases v <;> simp_all [jindexC]

/-- Rebuilding a container with the child a segment already resolves to is
the identity. -/
theorem jreplace_self (v : JValue) (s : Seg) (c : JValue)
    (h : jindexC v s = some c) : jreplace v s c = v := by
  cases v with
  | obj f =>
    have h2 : jobjLookup f (segKey s) = some c := by simpa [jindexC, jindex] using h
    simp [jreplace, jobjSet_lookup_self f (segKey s) c h2]
  | arr l =>
    cases s with
    | idx n =>
      have h2 : l.get? n = some c := by simpa [jindexC, jindex] using h
      simp [jreplace, jarrSet_self l n c h2]
    | str k =>
      cases hc : canonIdx k with
      | none => simp [jindexC, jindex, hc] at h
      | some n =>
        have h2 : l.get? n = some c := by simpa [jindexC, jindex, hc] using h
        simp [jreplace, hc, jarrSet_self l n c h2]
  | null => simp [jindexC] at h
  | bool b => simp [jindexC] at h
  | num m e => simp [jindexC] at h
  | str st => simp [jindexC] at h

/-- A container-only resolution is also an optional-chain walk. -/
theorem resolveNode_walkPath : ∀ (p : List Seg) (v t : JValue),
    resolveNode v p = some t → walkPath v p = some t := by
  intro p
  induction p with
  | nil =>
    intro v t h
    exact h
  | cons s rest ih =>
    intro v t h
    simp only [resolveNode] at h
    cases hj : jindexC v s with
    | none =>
      rw [hj] at h
      exact Option.noConfusion h
    | some c =>
      rw [hj] at h
      simp only [walkPath, jindexC_jindex v s c hj]
      exact ih c t h

/-- Writing back the resolved value at a resolved path is the identity. -/
theorem setAtPath_self : ∀ (p : List Seg) (doc t : JValue),
    resolveNode doc p = some t → setAtPath doc p t = doc := by
  intro p
  induction p with
  | nil =>
    intro doc t h
    simp only [resolveNode, Option.some.injEq] at h
    subst h
    rfl
  | cons s rest ih =>
    intro doc t h
    simp only [resolveNode] at h
    cases hj : jindexC doc s with
    | none =>
      rw [hj] at h
      exact Option.noConfusion h
    | some c =>
      rw [hj] at h
      simp only [setAtPath, jindexC_jindex doc s c hj]
      rw [ih c t h]
      exact jreplace_self doc s c hj

/-- The final assignment of the value a segment already resolves to is the
identity. -/
theorem assignSeg_self (doc : JValue) (last : Seg) (t : JValue)
    (h : jindexC doc last = some t) : assignSeg doc last t = .ok doc := by
  cases doc with
  | obj f =>
    have h2 : jobjLookup f (segKey last) = some t := by simpa [jindexC, jindex] using h
    simp [assignSeg, jobjSet_lookup_self f (segKey last) t h2]
  | arr l =>
    cases last with
    | idx n =>
      have h2 : l.get? n = some t := by simpa [jindexC, jindex] using h
      simp [assignSeg, jarrSet_self l n t h2]
    | str k =>
      cases hc : canonIdx k with
      | none => simp [jindexC, jindex, hc] at h
      | some n =>
        have h2 : l.get? n = some t := by simpa [jindexC, jindex, hc] using h
        simp [assignSeg, hc, jarrSet_self l n t h2]
  | null => simp [jindexC] at h
  | bool b => simp [jindexC] at h
  | num m e => simp [jindexC] at h
  | str st => simp [jindexC] at h

/-- Assigning along a resolved path the value it already holds succeeds
and is the identity. -/
theorem assignAtPath_self : ∀ (ps : List Seg) (doc : JValue) (last : Seg) (t : JValue),
    resolveNode doc (ps ++ [last]) = some t →
    assignAtPath doc ps last t = .ok doc := by
  intro ps
  induction ps with
  | nil =>
    intro doc last t h
    simp only [List.nil_append, resolveNode] at h
    cases hj : jindexC doc last with
    | none =>
      rw [hj] at h
      exact Option.noConfusion h
    | some c =>
      rw [hj] at h
      simp only [resolveNode, Option.some.injEq] at h
      subst h
      simp [assignAtPath, assignSeg_self doc last c hj]
  | cons s rest ih =>
    intro doc last t h
    simp only [List.cons_append, resolveNode] at h
    cases hj : jindexC doc s with
    | none =>
      rw [hj] at h
      exact Option.noConfusion h
    | some c =>
      rw [hj] at h
      simp only [assignAtPath, jindexC_jindex doc s c hj, ih c last t h]
      rw [jreplace_self doc s c hj]

/-- In a well-formed field list, the first occurrence of a member's key
holds that member's value. -/
theorem lookup_of_mem_wf : ∀ (f : List (String × JValue)) (k : String) (v : JValue),
    wfObj f = true → (k, v) ∈ f → jobjLookup f k = some v := by
  intro f
  induction f with
  | nil =>
    intro k v _ hm
    simp at hm
  | cons p t ih =>
    intro k v hwf hm
    obtain ⟨k0, v0⟩ := p
    simp only [wfObj, Bool.and_eq_true, Bool.not_eq_true'] at hwf
    rcases List.mem_cons.1 hm with he | hm2
    · rw [Prod.mk.injEq] at he
      simp only [jobjLookup]
      rw [if_pos he.1.symm, he.2]
    · by_cases hk : k0 = k
      · exfalso
        subst hk
        exact (hasKey_false_iff t k0).1 hwf.1.1 (k0, v) hm2 rfl
      · simp only [jobjLookup]
        rw [if_neg hk]
        exact ih k v hwf.2 hm2

/-- The patch loop is the identity when every entry either has the empty
key or writes back a value its key already holds. -/
theorem patchTarget_id (fields : List (String × JValue)) (hwf : wfObj fields = true) :
    ∀ es : List FormEntry,
      (∀ e ∈ es, ∀ k, e.key = some k →
        k = "" ∨ ∃ v, (k, v) ∈ fields ∧ parseValue e.value = v) →
      patchTarget (.obj fields) es = .obj fields := by
  intro es
  induction es with
  | nil =>
    intro _
    rfl
  | cons e rest ih =>
    intro hall
    show patchTarget _ rest = _
    have hstep : (match e.key with
        | some k =>
          if k = "" then JValue.obj fields
          else setProp (JValue.obj fields) k (parseValue e.value)
        | none => JValue.obj fields) = JValue.obj fields := by
      cases hk : e.key with
      | none => rfl
      | some k =>
        by_cases he : k = ""
        · simp [he]
        · rcases hall e (by simp) k hk with he2 | ⟨v, hmem, hv⟩
          · exact absurd he2 he
          · simp only [if_neg he, setProp]
            rw [hv, jobjSet_lookup_self fields k v (lookup_of_mem_wf fields k v hwf hmem)]
    rw [hstep]
    exact ih fun e2 he2 => hall e2 (List.mem_cons_of_mem e he2)

/-- Membership in the form seeded from an object node's rows. -/
theorem mem_seedForm_obj (fields : List (String × JValue)) (e : FormEntry)
    (he : e ∈ seedForm (modelRows (.obj fields))) :
    ∃ k v, (k, v) ∈ fields ∧ typeName v ≠ "array" ∧ typeName v ≠ "object" ∧
      e = ⟨some k, seedStr v⟩ := by
  simp only [seedForm, modelRows, List.mem_map, List.mem_filter] at he
  obtain ⟨r, ⟨⟨⟨k, v⟩, hm, hrdef⟩, hcond⟩, hre⟩ := he
  subst hrdef
  simp only [decide_eq_true_eq] at hcond
  exact ⟨k, v, hm, hcond.1, hcond.2, hre.symm⟩

/-- The rows of a non-container node: one unnamed row holding the value. -/
theorem modelRows_scalar (t : JValue) (h : isContainer t = false) :
    modelRows t = [⟨none, t, typeName t⟩] := by
  cases t <;> first | rfl | simp [isContainer] at h

/-- A non-container node is neither of the filtered row types. -/
theorem typeName_scalar (t : JValue) (h : isContainer t = false) :
    typeName t ≠ "array" ∧ typeName t ≠ "object" := by
  cases t <;> simp_all [isContainer, typeName]

/-- The form seeded from a non-container node's single row. -/
theorem seedForm_scalar (t : JValue) (h : isContainer t = false) :
    seedForm [⟨none, t, typeName t⟩] = [⟨none, seedStr t⟩] := by
  cases t <;> first | rfl | simp [isContainer] at h

/-- An object node's rows are never the single-unnamed shape. -/
theorem isSingleUnnamed_modelRows_obj (fields : List (String × JValue)) :
    isSingleUnnamed (modelRows (.obj fields)) = false := by
  cases fields with
  | nil => rfl
  | cons p ft =>
    obtain ⟨k, v⟩ := p
    cases ft with
    | nil => simp [modelRows, isSingleUnnamed]
    | cons q ft2 => simp [modelRows, isSingleUnnamed]

/-- Splitting a nonempty list at its last element. -/
theorem getLast?_dropLast_append : ∀ (l : List Seg) (x : Seg),
    l.getLast? = some x → l.dropLast ++ [x] = l := by
  intro l
  induction l with
  | nil =>
    intro x h
    exact Option.noConfusion h
  | cons a t ih =>
    intro x h
    cases t with
    | nil =>
      simp at h
      simp [h]
    | cons b t2 =>
      rw [List.getLast?_cons_cons] at h
      show (a :: (b :: t2).dropLast) ++ [x] = a :: b :: t2
      rw [List.cons_append, ih x h]

/-- C6 counterexample: re-submitting the untouched seeded form of the
object whose field a holds the string 42 commits a document that parses
differently from the original — the seeded text 42 coerces back to the
number 42, not the string. -/
theorem C6_counterexample :
    jsonParse (resultingDoc "\x7b\"a\":\"42\"\x7d"
      (applyEdits "\x7b\"a\":\"42\"\x7d"
        (modelRows (JValue.obj [("a", JValue.str "42")])) []
        (seedForm (modelRows (JValue.obj [("a", JValue.str "42")]))))) ≠
      jsonParse "\x7b\"a\":\"42\"\x7d" := by
  decide

/-- C6 (amended): for a parsed document, a node reached by a container-only
path whose target is an object or a non-container scalar, and rows whose
seeded texts coerce back to exactly their values, re-submitting the
unmodified seeded form commits a document that parses back to the original
parsed value — deep-equal to the original ignoring whitespace. -/
theorem C6_round_trip (raw : String) (D t : JValue) (path : List Seg)
    (hparse : jsonParse raw = some D)
    (hres : resolveNode D path = some t)
    (hco : rowsCoerceBack t)
    (hshape : (∃ f, t = JValue.obj f) ∨ isContainer t = false) :
    jsonParse (resultingDoc raw
      (applyEdits raw (modelRows t) path (seedForm (modelRows t)))) = some D := by
  have hraw : ¬raw = "" := ne_empty_of_parses raw D hparse
  have hwfD : wfV D = true := wfV_jsonParse raw D hparse
  have hwalk : walkPath D path = some t := resolveNode_walkPath path D t hres
  have hwft : wfV t = true := wfV_walkPath path D t hwfD hwalk
  unfold applyEdits
  rw [if_neg hraw, hparse]
  show jsonParse (resultingDoc raw
    (applyParsed D (modelRows t) path (seedForm (modelRows t)))) = some D
  rcases hshape with ⟨fields, rfl⟩ | hcont
  · have hwff : wfObj fields = true := by simpa [wfV] using hwft
    have hpatch : patchTarget (JValue.obj fields)
        (seedForm (modelRows (JValue.obj fields))) = JValue.obj fields := by
      apply patchTarget_id fields hwff
      intro e he k hk
      rcases mem_seedForm_obj fields e he with ⟨k2, v2, hm, hta, hto, hedef⟩
      subst hedef
      simp only [Option.some.injEq] at hk
      subst hk
      right
      refine ⟨v2, hm, ?_⟩
      have hrow : (⟨some k2, v2, typeName v2⟩ : Row) ∈ modelRows (JValue.obj fields) := by
        simp only [modelRows, List.mem_map]
        exact ⟨(k2, v2), hm, rfl⟩
      exact hco _ hrow hta hto
    have hnot : isSingleUnnamed (modelRows (JValue.obj fields)) = false :=
      isSingleUnnamed_modelRows_obj fields
    simp only [applyParsed, hnot, Bool.false_eq_true, if_false, hwalk, isContainer,
      if_true, resultingDoc, hpatch]
    rw [setAtPath_self path D (JValue.obj fields) hres]
    exact jsonParse_stringify D hwfD
  · have hrows : modelRows t = [⟨none, t, typeName t⟩] := modelRows_scalar t hcont
    have hseed : seedForm (modelRows t) = [⟨none, seedStr t⟩] := by
      rw [hrows]
      exact seedForm_scalar t hcont
    have hsingle : isSingleUnnamed (modelRows t) = true := by
      rw [hrows]
      rfl
    have htn := typeName_scalar t hcont
    have hcoerce1 : parseValue (seedStr t) = t := by
      have hrow : (⟨none, t, typeName t⟩ : Row) ∈ modelRows t := by
        rw [hrows]
        simp
      exact hco _ hrow htn.1 htn.2
    simp only [applyParsed, hsingle, if_true, hseed, headValue, hcoerce1]
    cases path with
    | nil =>
      have hDt : D = t := by
        simpa [resolveNode] using hres
      simp only [resultingDoc]
      rw [← hDt]
      exact jsonParse_stringify D hwfD
    | cons s0 ps =>
      cases hlast : (s0 :: ps).getLast? with
      | none =>
        rw [show ((s0 :: ps).getLast? : Option Seg) =
            some ((s0 :: ps).getLast (by simp)) from List.getLast?_eq_getLast _ _] at hlast
        exact Option.noConfusion hlast
      | some last =>
        have hsplit : (s0 :: ps).dropLast ++ [last] = s0 :: ps :=
          getLast?_dropLast_append _ last hlast
        have hassign : assignAtPath D (s0 :: ps).dropLast last t = .ok D := by
          apply assignAtPath_self
          rw [hsplit]
          exact hres
        simp only [hlast, hassign, resultingDoc]
        exact jsonParse_stringify D hwfD

/-- C6 witness: the document with the single numeric field a re-committed
from its untouched seeded form parses back to the original value. -/
theorem C6_round_trip_witness :
    jsonParse (resultingDoc "\x7b\"a\":1\x7d"
      (applyEdits "\x7b\"a\":1\x7d"
        (modelRows (JValue.obj [("a", JValue.num 1 0)])) []
        (seedForm (modelRows (JValue.obj [("a", JValue.num 1 0)]))))) =
      some (JValue.obj [("a", JValue.num 1 0)]) :=
  C6_round_trip "\x7b\"a\":1\x7d" (JValue.obj [("a", JValue.num 1 0)])
    (JValue.obj [("a", JValue.num 1 0)]) [] (by decide) rfl
    (by unfold rowsCoerceBack; decide)
    (Or.inl ⟨[("a", JValue.num 1 0)], rfl⟩)

/-- C10 witness: the array document with elements 1 and 2, patched at the
root with the canonical index key 0 and value 9, commits the array 9, 2. -/
theorem C10_array_target_witness :
    applyEdits "[1,2]" [⟨some "0", .num 1 0, "number"⟩, ⟨some "1", .num 2 0, "number"⟩]
      [] [⟨some "0", "9"⟩] = .committed "[\n  9,\n  2\n]" := by
  have h := (C10_array_target "[1,2]" (.arr [.num 1 0, .num 2 0]) .null
    [.num 1 0, .num 2 0]
    [⟨some "0", .num 1 0, "number"⟩, ⟨some "1", .num 2 0, "number"⟩]
    [] [⟨some "0", "9"⟩] (by decide) (by decide)).1 (by decide)
  exact h.trans (by decide)

end NodeModal
